import Mathlib

/-!
Verification of the DEFLATE_QPL compression codec core
(src/Compression/CompressionCodecDeflateQpl.cpp).

The development shallow-embeds the four components of the codec:

* `JobPool` — the process-wide pool of hardware job slots with one atomic
  exclusivity flag per slot (`DeflateQplJobHWPool`).  The random probing of
  `acquireJob` is modelled by an explicit stream `rands : Nat → Nat` of draws
  from the uniform distribution over slot indices; the atomic
  compare-exchange is `tryLockJob`.
* the software engine (`SoftwareCodecDeflateQpl`), whose execution primitive
  is an external collaborator; it is carried as a record `SwCodec` of pure
  functions returning `Except` (a thrown DB::Exception is `Except.error`
  with the vendor status code).
* the hardware engine (`HardwareCodecDeflateQpl`).  The accelerator itself is
  a black box; one call's observable device behaviour (submit status, number
  of in-progress poll observations, final status, bytes produced) is carried
  as an explicit outcome record, and the control flow around it — acquire,
  configure, submit, poll, release, pending-map registration, and the
  round-robin drain of `flushAsynchronousDecompressRequests` — is translated
  statement by statement from the source.
* the public codec (`CompressionCodecDeflateQpl`) with its mode dispatch.

Memory-sanitizer unpoisoning and the page-touch prefill of the destination
buffer are housekeeping on buffers outside this model and are not embedded.
Buffers are byte lists; destination buffers of asynchronous jobs are
identified by a numeric tag so that the re-run performed by the flush drain
can be compared field by field with what was recorded at submit time.
-/

namespace QplCodec

instance exceptDecEq {ε α : Type} [DecidableEq ε] [DecidableEq α] :
    DecidableEq (Except ε α) := fun a b =>
  match a, b with
  | Except.ok x, Except.ok y =>
    if h : x = y then Decidable.isTrue (by rw [h])
    else Decidable.isFalse (fun hh => h (Except.ok.inj hh))
  | Except.ok _, Except.error _ => Decidable.isFalse (fun hh => Except.noConfusion hh)
  | Except.error _, Except.ok _ => Decidable.isFalse (fun hh => Except.noConfusion hh)
  | Except.error x, Except.error y =>
    if h : x = y then Decidable.isTrue (by rw [h])
    else Decidable.isFalse (fun hh => h (Except.error.inj hh))

/-- The process-wide hardware job pool (`DeflateQplJobHWPool`): discovered
capacity, readiness flag, and one exclusivity flag per slot (`true` = held).
The pre-initialized `qpl_job` objects carry no state that matters here beyond
their slot index, so the buffer of jobs is not represented separately. -/
structure JobPool where
  max_hw_jobs : Nat
  job_pool_ready : Bool
  hw_job_ptr_locks : List Bool
deriving Repr, DecidableEq

def isJobPoolReady (p : JobPool) : Bool := p.job_pool_ready

/-- `tryLockJob`: `compare_exchange_strong` of slot `index` from free to held.
Succeeds if and only if the flag currently reads `false`. -/
def tryLockJob (p : JobPool) (index : Nat) : Bool × JobPool :=
  if p.hw_job_ptr_locks.getD index true = false then
    (true, { p with hw_job_ptr_locks := p.hw_job_ptr_locks.set index true })
  else
    (false, p)

/-- `unLockJob`: store `false` into the exclusivity flag of slot `index`. -/
def unLockJob (p : JobPool) (index : Nat) : JobPool :=
  { p with hw_job_ptr_locks := p.hw_job_ptr_locks.set index false }

/-- The retry loop of `acquireJob`.  Each attempt draws the next random index
(`rands pos`, reduced into `[0, max_hw_jobs)` as the uniform distribution
does) and tries the compare-exchange; `fuel` is the number of further retries
the `retry > max_hw_jobs` guard still allows, so the initial call uses
`fuel = max_hw_jobs` for `max_hw_jobs + 1` attempts in total.  Returns the
locked index together with the updated pool, and counts the probes made. -/
def acquireAttempts (rands : Nat → Nat) (p : JobPool) : Nat → Nat → Option (Nat × JobPool) × Nat
  | pos, 0 =>
    let t := tryLockJob p (rands pos % p.max_hw_jobs)
    if t.1 then (some (rands pos % p.max_hw_jobs, t.2), 1) else (none, 1)
  | pos, fuel + 1 =>
    let t := tryLockJob p (rands pos % p.max_hw_jobs)
    if t.1 then (some (rands pos % p.max_hw_jobs, t.2), 1)
    else
      let r := acquireAttempts rands p (pos + 1) fuel
      (r.1, r.2 + 1)

/-- `acquireJob`: on a ready pool, probe random slots with the bounded retry
loop; on success return `(job_id, locked index, pool)` with
`job_id = max_hw_jobs - index`.  On an unready pool, fail immediately.
The returned index stands for the `qpl_job *` into the slot buffer. -/
def acquireJob (p : JobPool) (rands : Nat → Nat) : Option (Nat × Nat × JobPool) :=
  if isJobPoolReady p then
    match (acquireAttempts rands p 0 p.max_hw_jobs).1 with
    | some (index, p') => some (p.max_hw_jobs - index, index, p')
    | none => none
  else none

/-- Number of compare-exchange probes a call to `acquireJob` performs. -/
def acquireProbes (p : JobPool) (rands : Nat → Nat) : Nat :=
  if isJobPoolReady p then (acquireAttempts rands p 0 p.max_hw_jobs).2 else 0

/-- `releaseJob`: clear the flag of the slot the handle maps to
(`max_hw_jobs - job_id`); no-op when the pool is not ready. -/
def releaseJob (p : JobPool) (job_id : Nat) : JobPool :=
  if isJobPoolReady p then unLockJob p (p.max_hw_jobs - job_id) else p

/-!
### Interleaved acquire/release (claim C3)

Concurrency is embedded as a sequence of atomic events against the shared
flag array: each event is either one compare-exchange attempt of some
thread's `acquireJob` retry loop (`tryLockJob` is a single atomic
instruction), or the `unLockJob` store of a `releaseJob` performed by a
thread on a slot it holds (every call site of `releaseJob` in the source
releases a handle that the same logical caller acquired).  The `holders`
field is a ghost history: the pairs `(thread, index)` whose acquire
succeeded and whose release has not yet happened.
-/

/-- Shared flag array plus the ghost list of live holders. -/
structure PoolSync where
  flags : List Bool
  holders : List (Nat × Nat)
deriving Repr, DecidableEq

/-- One atomic event: a compare-exchange attempt by thread `t` on slot `i`,
or the releasing store by holder `t` of slot `i`. -/
inductive SyncEvent where
  | tryAcquire (t i : Nat)
  | release (t i : Nat)
deriving Repr, DecidableEq

/-- Effect of one atomic event.  A failed compare-exchange changes nothing;
a successful one sets the flag and records the holder.  A release by a
live holder clears the flag and removes it from the ghost list; the event
is a no-op for a thread that is not a live holder (call discipline: the
source only ever releases a handle it acquired). -/
def syncStep (s : PoolSync) (ev : SyncEvent) : PoolSync :=
  match ev with
  | SyncEvent.tryAcquire t i =>
    if s.flags.getD i true = false then
      { flags := s.flags.set i true, holders := (t, i) :: s.holders }
    else s
  | SyncEvent.release t i =>
    if (t, i) ∈ s.holders then
      { flags := s.flags.set i false, holders := s.holders.erase (t, i) }
    else s

/-- A pool of `n` slots, all free, no holders. -/
def syncInit (n : Nat) : PoolSync :=
  { flags := List.replicate n false, holders := [] }

/-- Run an arbitrary interleaving of atomic events from the initial pool. -/
def syncRun (n : Nat) (events : List SyncEvent) : PoolSync :=
  events.foldl syncStep (syncInit n)

/-- Invariant tying flags to the ghost holders: no slot index has two live
holders, and every live holder's flag is set. -/
def SyncInv (s : PoolSync) : Prop :=
  (s.holders.map Prod.snd).Nodup ∧ ∀ h ∈ s.holders, s.flags.getD h.2 true = true

/-!
### Software and hardware engines
-/

/-- Decompression mode of the public codec. -/
inductive CodecMode where
  | Synchronous
  | Asynchronous
  | SoftwareFallback
deriving Repr, DecidableEq

/-- The software execution collaborator behind `SoftwareCodecDeflateQpl`:
`compress source destCapacity` yields the compressed size, `decompress
source uncompressedSize` yields the produced bytes; `Except.error` carries
the vendor status of a thrown `CANNOT_COMPRESS` / `CANNOT_DECOMPRESS`. -/
structure SwCodec where
  compress : List Nat → Nat → Except Nat Nat
  decompress : List Nat → Nat → Except Nat (List Nat)

/-- Observable device behaviour of one hardware `qpl_execute_job` compress
call: whether the status was `QPL_STS_OK`, and `total_out` on success. -/
structure HwCompressOutcome where
  execOk : Bool
  total_out : Nat
deriving Repr, DecidableEq

/-- Observable device behaviour of one hardware decompress job: the
`qpl_submit_job` status, how many polls observe `QPL_STS_BEING_PROCESSED`
before the job leaves that status (every job eventually does), the final
status, and the bytes written on success. -/
structure HwDecompressOutcome where
  submitOk : Bool
  polls : Nat
  finalOk : Bool
  output : List Nat
deriving Repr, DecidableEq

/-- The busy-wait `do { _tpause; status = qpl_check_job } while
(status == QPL_STS_BEING_PROCESSED)`: consumes the in-progress observations
and produces the final status. -/
def checkJobLoop : Nat → Bool → Bool
  | 0, finalOk => finalOk
  | n + 1, finalOk => checkJobLoop n finalOk

/-- `HardwareCodecDeflateQpl::doCompressData`: acquire a slot (failure
returns the `RET_ERROR` sentinel, here `none`), execute synchronously,
release the slot regardless of outcome, return `total_out` on success. -/
def hwDoCompressData (p : JobPool) (rands : Nat → Nat) (dev : HwCompressOutcome)
    (_source : List Nat) (_dest : Nat) (_dest_size : Nat) : Option Nat × JobPool :=
  match acquireJob p rands with
  | none => (none, p)
  | some (job_id, _index, p') =>
    if dev.execOk then (some dev.total_out, releaseJob p' job_id)
    else (none, releaseJob p' job_id)

/-- `HardwareCodecDeflateQpl::doDecompressDataSynchronous`: acquire, submit,
busy-poll until the job leaves `QPL_STS_BEING_PROCESSED`, release on every
exit path; `none` is the `RET_ERROR` sentinel, `some out` the bytes the
device wrote on success. -/
def hwDoDecompressDataSynchronous (p : JobPool) (rands : Nat → Nat)
    (dev : HwDecompressOutcome) (_source : List Nat) (_uncompressed_size : Nat) :
    Option (List Nat) × JobPool :=
  match acquireJob p rands with
  | none => (none, p)
  | some (job_id, _index, p') =>
    if dev.submitOk then
      if checkJobLoop dev.polls dev.finalOk then (some dev.output, releaseJob p' job_id)
      else (none, releaseJob p' job_id)
    else (none, releaseJob p' job_id)

/-- The fields of a pooled `qpl_job` resource as recorded at submit time by
`doDecompressDataAsynchronous`, together with the device behaviour that the
later flush will observe on it.  `next_out` is the tag of the destination
buffer. -/
structure QplJobRec where
  next_in : List Nat
  available_in : Nat
  next_out : Nat
  available_out : Nat
  polls : Nat
  finalOk : Bool
  output : List Nat
deriving Repr, DecidableEq

/-- `HardwareCodecDeflateQpl::doDecompressDataAsynchronous`: acquire,
configure, submit without waiting; on successful submit register
`(job_id, resource)` in the pending map and return the handle, on submit
failure release the slot and return the `RET_ERROR` sentinel. -/
def hwDoDecompressDataAsynchronous (p : JobPool) (rands : Nat → Nat)
    (dev : HwDecompressOutcome) (source : List Nat) (dest : Nat)
    (uncompressed_size : Nat) (pending : List (Nat × QplJobRec)) :
    Option Nat × JobPool × List (Nat × QplJobRec) :=
  match acquireJob p rands with
  | none => (none, p, pending)
  | some (job_id, _index, p') =>
    let jr : QplJobRec :=
      { next_in := source, available_in := source.length, next_out := dest
        available_out := uncompressed_size, polls := dev.polls
        finalOk := dev.finalOk, output := dev.output }
    if dev.submitOk then (some job_id, p', pending ++ [(job_id, jr)])
    else (none, releaseJob p' job_id, pending)

/-- Arguments of one `SoftwareCodecDeflateQpl::doDecompressData` invocation,
logged so that theorems can talk about which software re-runs happened. -/
structure SwCall where
  source : List Nat
  source_size : Nat
  dest : Nat
  uncompressed_size : Nat
deriving Repr, DecidableEq

/-- Result of the round-robin drain `flushAsynchronousDecompressRequests`:
`result` is `Except.error e` when a software re-run threw (the exception
propagates out of the drain), `map` is the pending map left behind,
`released` the handles released in order, `swRuns` the software re-runs
performed (the recorded job fields, in order). -/
structure FlushRes where
  result : Except Nat Unit
  pool : JobPool
  map : List (Nat × QplJobRec)
  released : List Nat
  swRuns : List SwCall
deriving Repr

def entryWeight (e : Nat × QplJobRec) : Nat := e.2.polls + 1

def passWeight (l : List (Nat × QplJobRec)) : Nat := (l.map entryWeight).sum

/-- The loop of `flushAsynchronousDecompressRequests`.  The `std::map`
iterator state is split as `processed` (entries already visited in the
current pass, in reverse visit order) and `remaining` (the entries still
ahead of the iterator); `processed.reverse ++ remaining` is the live map.
One step checks the entry under the iterator: still in progress (one of its
finitely many `QPL_STS_BEING_PROCESSED` observations is consumed) moves the
iterator on; a finished entry is resolved — on a failure status the software
decompress is re-run on the recorded fields (a thrown software exception
aborts the whole drain, the `Except.error` branch) — then erased and its
slot released.  When the iterator reaches the end with entries still
pending, it wraps to `begin` after the `_tpause`. -/
def flushGo (sw : SwCodec) (pool : JobPool) (processed remaining : List (Nat × QplJobRec))
    (released : List Nat) (swRuns : List SwCall) : FlushRes :=
  match remaining with
  | [] =>
    match processed with
    | [] => { result := Except.ok (), pool := pool, map := [], released := released, swRuns := swRuns }
    | q :: qs => flushGo sw pool [] (q :: qs).reverse released swRuns
  | (job_id, jr) :: rest =>
    if _h : 0 < jr.polls then
      flushGo sw pool ((job_id, { jr with polls := jr.polls - 1 }) :: processed) rest released swRuns
    else if jr.finalOk then
      flushGo sw (releaseJob pool job_id) processed rest (released ++ [job_id]) swRuns
    else
      match sw.decompress jr.next_in jr.available_out with
      | Except.ok _ =>
        flushGo sw (releaseJob pool job_id) processed rest (released ++ [job_id])
          (swRuns ++ [{ source := jr.next_in, source_size := jr.available_in
                        dest := jr.next_out, uncompressed_size := jr.available_out }])
      | Except.error e =>
        { result := Except.error e, pool := pool
          map := processed.reverse ++ (job_id, jr) :: rest, released := released
          swRuns := swRuns ++ [{ source := jr.next_in, source_size := jr.available_in
                                 dest := jr.next_out, uncompressed_size := jr.available_out }] }
termination_by 2 * (passWeight processed + passWeight remaining) + processed.length
decreasing_by
  all_goals simp [passWeight, entryWeight, List.map_reverse, List.sum_reverse]
  all_goals omega

/-- `HardwareCodecDeflateQpl::flushAsynchronousDecompressRequests`, started
with the iterator at `begin` of the pending map. -/
def hwFlushAsynchronousDecompressRequests (sw : SwCodec) (pool : JobPool)
    (decomp_async_job_map : List (Nat × QplJobRec)) : FlushRes :=
  flushGo sw pool [] decomp_async_job_map [] []

/-- The software re-run a failed asynchronous job triggers: the recorded
`next_in / available_in / next_out / available_out` fields. -/
def failCall (jr : QplJobRec) : SwCall :=
  { source := jr.next_in, source_size := jr.available_in
    dest := jr.next_out, uncompressed_size := jr.available_out }

/-- The software re-runs a map's entries with a failure status give rise to,
in map order. -/
def failCalls (l : List (Nat × QplJobRec)) : List SwCall :=
  (l.filter (fun e => !e.2.finalOk)).map (fun e => failCall e.2)

/-- Slot `max_hw_jobs - id` (the slot handle `id` maps to) is free. -/
def slotFreeIn (p : JobPool) (id : Nat) : Prop :=
  p.hw_job_ptr_locks.getD (p.max_hw_jobs - id) true = false

/-!
### The public codec (`CompressionCodecDeflateQpl`)
-/

/-- `getMaxCompressedDataSize`: the ZLIB-aligned worst-case bound, in the
source computed in 32-bit unsigned arithmetic. -/
def getMaxCompressedDataSize (uncompressed_size : Nat) : Nat :=
  (uncompressed_size + uncompressed_size >>> 12 + uncompressed_size >>> 14 +
    uncompressed_size >>> 25 + 13) % 2 ^ 32

/-- `CompressionCodecDeflateQpl::doCompressData`: try the hardware engine
when the pool is ready, and on its `RET_ERROR` sentinel retry the identical
call through the software engine; both paths size the destination with
`getMaxCompressedDataSize`. -/
def ccDoCompressData (p : JobPool) (rands : Nat → Nat) (dev : HwCompressOutcome)
    (sw : SwCodec) (source : List Nat) (dest : Nat) : Except Nat Nat × JobPool :=
  if isJobPoolReady p then
    match hwDoCompressData p rands dev source dest (getMaxCompressedDataSize source.length) with
    | (some res, p') => (Except.ok res, p')
    | (none, p') => (sw.compress source (getMaxCompressedDataSize source.length), p')
  else
    (sw.compress source (getMaxCompressedDataSize source.length), p)

/-- What one decompress call delivers: bytes written to the destination now,
or a deferred asynchronous job whose destination becomes valid at flush. -/
inductive DecompressResult where
  | bytes (out : List Nat)
  | deferred (job_id : Nat)
deriving Repr, DecidableEq

/-- Everything observable about one `doDecompressData` call: its result (or
thrown software error), the pool, the pending map, and the software
decompress invocations it made. -/
structure DecompressEffect where
  result : Except Nat DecompressResult
  pool : JobPool
  pending : List (Nat × QplJobRec)
  swRuns : List SwCall
deriving Repr

/-- One `sw_codec->doDecompressData(source, source_size, dest,
uncompressed_size)` call and its effect. -/
def swDecompressEffect (sw : SwCodec) (source : List Nat) (dest : Nat)
    (uncompressed_size : Nat) (p : JobPool) (pending : List (Nat × QplJobRec)) :
    DecompressEffect :=
  match sw.decompress source uncompressed_size with
  | Except.ok out =>
    { result := Except.ok (DecompressResult.bytes out), pool := p, pending := pending
      swRuns := [{ source := source, source_size := source.length
                   dest := dest, uncompressed_size := uncompressed_size }] }
  | Except.error e =>
    { result := Except.error e, pool := p, pending := pending
      swRuns := [{ source := source, source_size := source.length
                   dest := dest, uncompressed_size := uncompressed_size }] }

/-- `CompressionCodecDeflateQpl::doDecompressData`: dispatch on the mode.
Synchronous: hardware when the pool is ready, software on its failure or on
an unready pool.  Asynchronous: submit to hardware when ready; on submit
failure (or unready pool) degrade to a synchronous software call.
SoftwareFallback: always software. -/
def ccDoDecompressData (mode : CodecMode) (p : JobPool) (rands : Nat → Nat)
    (devS devA : HwDecompressOutcome) (sw : SwCodec) (source : List Nat)
    (dest : Nat) (uncompressed_size : Nat) (pending : List (Nat × QplJobRec)) :
    DecompressEffect :=
  match mode with
  | CodecMode.Synchronous =>
    if isJobPoolReady p then
      match hwDoDecompressDataSynchronous p rands devS source uncompressed_size with
      | (some out, p') =>
        { result := Except.ok (DecompressResult.bytes out), pool := p'
          pending := pending, swRuns := [] }
      | (none, p') => swDecompressEffect sw source dest uncompressed_size p' pending
    else swDecompressEffect sw source dest uncompressed_size p pending
  | CodecMode.Asynchronous =>
    if isJobPoolReady p then
      match hwDoDecompressDataAsynchronous p rands devA source dest uncompressed_size pending with
      | (some job_id, p', pending') =>
        { result := Except.ok (DecompressResult.deferred job_id), pool := p'
          pending := pending', swRuns := [] }
      | (none, p', pending') => swDecompressEffect sw source dest uncompressed_size p' pending'
    else swDecompressEffect sw source dest uncompressed_size p pending
  | CodecMode.SoftwareFallback =>
    swDecompressEffect sw source dest uncompressed_size p pending

/-- Observable outcome of `CompressionCodecDeflateQpl::
flushAsynchronousDecompressRequests`: the result (a software re-run's
exception propagates), the mode afterwards, the pool and pending map. -/
structure CcFlushOut where
  result : Except Nat Unit
  mode : CodecMode
  pool : JobPool
  pending : List (Nat × QplJobRec)
deriving Repr

/-- `CompressionCodecDeflateQpl::flushAsynchronousDecompressRequests`:
delegate the drain to the hardware engine when the pool is ready, then set
the mode back to Synchronous — a statement that is skipped when the drain
throws, because the exception propagates first. -/
def ccFlushAsynchronousDecompressRequests (mode : CodecMode) (p : JobPool)
    (sw : SwCodec) (pending : List (Nat × QplJobRec)) : CcFlushOut :=
  if isJobPoolReady p then
    match (hwFlushAsynchronousDecompressRequests sw p pending).result with
    | Except.ok _ =>
      { result := Except.ok (), mode := CodecMode.Synchronous
        pool := (hwFlushAsynchronousDecompressRequests sw p pending).pool
        pending := (hwFlushAsynchronousDecompressRequests sw p pending).map }
    | Except.error e =>
      { result := Except.error e, mode := mode
        pool := (hwFlushAsynchronousDecompressRequests sw p pending).pool
        pending := (hwFlushAsynchronousDecompressRequests sw p pending).map }
  else
    { result := Except.ok (), mode := CodecMode.Synchronous, pool := p, pending := pending }

/-!
### The destructor of `SoftwareCodecDeflateQpl` (claim C9)
-/

/-- Lazy creation in `getJobCodecPtr`: the private resource is allocated
and initialized on first use; later calls return the existing one. -/
def swGetJobCodecPtr (sw_job : Option Unit) : Option Unit :=
  match sw_job with
  | none => some ()
  | some j => some j

/-- The destructor as written in the source — `if (!sw_job)
qpl_fini_job(sw_job);` — finalizes only when the resource pointer is ABSENT,
and then targets that absent pointer.  The returned list holds the arguments
of the `qpl_fini_job` calls the destructor makes. -/
def swDestructorFiniTargets (sw_job : Option Unit) : List (Option Unit) :=
  match sw_job with
  | none => [sw_job]
  | some _ => []

/-!
### Whole-system slot balance (claim C10)

A system state is the shared pool plus the pending map of every
`HardwareCodecDeflateQpl` instance in the process.  An operation is one
complete call of a hardware-engine entry point by the engine named by its
index; its device behaviour and random draws are carried in the operation.
-/

structure SysState where
  pool : JobPool
  engines : List (List (Nat × QplJobRec))
deriving Repr

/-- Concatenation of a list of lists. -/
def joinL {α : Type} (L : List (List α)) : List α :=
  L.foldr (fun m acc => m ++ acc) []

/-- All pending entries of all engines. -/
def allPending (s : SysState) : List (Nat × QplJobRec) :=
  joinL s.engines

/-- The slot indices registered in some engine's pending map
(`max_hw_jobs - id` for each registered handle). -/
def registeredIndices (s : SysState) : List Nat :=
  (allPending s).map (fun e => s.pool.max_hw_jobs - e.1)

/-- The slot indices whose exclusivity flag is set. -/
def heldIndices (p : JobPool) : List Nat :=
  (List.range p.max_hw_jobs).filter (fun i => p.hw_job_ptr_locks.getD i true)

/-- Pool-with-registered-handles invariant, phrased over the list of
registered handles: well-formed flag array, unready pools carry no
registrations, handles are in `[1, max_hw_jobs]`, no slot is registered
twice, and the held slots are exactly the registered ones. -/
def PoolIdsInv (p : JobPool) (ids : List Nat) : Prop :=
  p.hw_job_ptr_locks.length = p.max_hw_jobs ∧
  (p.job_pool_ready = true → 0 < p.max_hw_jobs) ∧
  (p.job_pool_ready = false → ids = []) ∧
  (∀ id ∈ ids, 1 ≤ id ∧ id ≤ p.max_hw_jobs) ∧
  (ids.map (fun id => p.max_hw_jobs - id)).Nodup ∧
  (∀ i ∈ heldIndices p, i ∈ ids.map (fun id => p.max_hw_jobs - id)) ∧
  (∀ i ∈ ids.map (fun id => p.max_hw_jobs - id), i ∈ heldIndices p)

/-- System invariant: the held slots are exactly the slots registered in
some engine's pending-async-job map. -/
def SysInv (s : SysState) : Prop :=
  PoolIdsInv s.pool ((allPending s).map Prod.fst)

/-- One complete hardware-engine operation, performed by engine `e` with
the given random draws and device behaviour. -/
inductive SysOp where
  | compressOp (e : Nat) (rands : Nat → Nat) (dev : HwCompressOutcome)
      (source : List Nat) (dest : Nat) (dest_size : Nat)
  | decompSyncOp (e : Nat) (rands : Nat → Nat) (dev : HwDecompressOutcome)
      (source : List Nat) (n : Nat)
  | decompAsyncOp (e : Nat) (rands : Nat → Nat) (dev : HwDecompressOutcome)
      (source : List Nat) (dest : Nat) (n : Nat)
  | flushOp (e : Nat) (sw : SwCodec)

/-- Effect of one operation on the system state.  Operations of an engine
index that does not exist are no-ops. -/
def applySysOp (s : SysState) (op : SysOp) : SysState :=
  match op with
  | SysOp.compressOp _ rands dev source dest dest_size =>
    { s with pool := (hwDoCompressData s.pool rands dev source dest dest_size).2 }
  | SysOp.decompSyncOp _ rands dev source n =>
    { s with pool := (hwDoDecompressDataSynchronous s.pool rands dev source n).2 }
  | SysOp.decompAsyncOp e rands dev source dest n =>
    if he : e < s.engines.length then
      let t := hwDoDecompressDataAsynchronous s.pool rands dev source dest n
        (s.engines.get ⟨e, he⟩)
      { pool := t.2.1, engines := s.engines.set e t.2.2 }
    else s
  | SysOp.flushOp e sw =>
    if he : e < s.engines.length then
      let r := hwFlushAsynchronousDecompressRequests sw s.pool (s.engines.get ⟨e, he⟩)
      { pool := r.pool, engines := s.engines.set e r.map }
    else s

/-!
### Concrete instances used by witnesses and counterexamples
-/

/-- A software engine that always succeeds: compression produces no output
bytes, decompression produces the requested number of zero bytes. -/
def swTrivial : SwCodec :=
  { compress := fun _ _ => Except.ok 0
    decompress := fun _ n => Except.ok (List.replicate n 0) }

/-- A software engine whose execution always reports vendor status 3. -/
def swFailing : SwCodec :=
  { compress := fun _ _ => Except.error 3
    decompress := fun _ _ => Except.error 3 }

/-- A ready two-slot pool with both slots free. -/
def poolTwoFree : JobPool := { max_hw_jobs := 2, job_pool_ready := true, hw_job_ptr_locks := [false, false] }

/-- A ready one-slot pool whose slot is held. -/
def poolOneHeld : JobPool := { max_hw_jobs := 1, job_pool_ready := true, hw_job_ptr_locks := [true] }

/-- An unready pool. -/
def poolUnready : JobPool := { max_hw_jobs := 0, job_pool_ready := false, hw_job_ptr_locks := [] }

/-- A pending job that has already finished with a failure status. -/
def jrFailed : QplJobRec :=
  { next_in := [9], available_in := 1, next_out := 0, available_out := 4
    polls := 0, finalOk := false, output := [] }

/-- A pending job observed in progress twice before finishing successfully. -/
def jrSlow : QplJobRec :=
  { next_in := [7, 7], available_in := 2, next_out := 1, available_out := 2
    polls := 2, finalOk := true, output := [0, 0] }

/-- A ready two-slot pool with both slots held. -/
def poolTwoHeld : JobPool :=
  { max_hw_jobs := 2, job_pool_ready := true, hw_job_ptr_locks := [true, true] }

/-!
## Theorems

### Basic facts about the flag array and the acquire loop
-/

theorem getD_true_of_len_le (l : List Bool) (i : Nat) (h : l.length ≤ i) :
    l.getD i true = true :=
  List.getD_eq_default l true h

theorem lt_length_of_getD_false (l : List Bool) (i : Nat)
    (h : l.getD i true = false) : i < l.length := by
  by_contra hc
  push_neg at hc
  rw [getD_true_of_len_le l i hc] at h
  exact Bool.noConfusion h

theorem getD_set_self (l : List Bool) (i : Nat) (b : Bool) (h : i < l.length) :
    (l.set i b).getD i true = b := by
  induction l generalizing i with
  | nil => simp at h
  | cons x xs ih =>
    cases i with
    | zero => rfl
    | succ j => simpa using ih j (by simpa using h)

theorem getD_set_ne (l : List Bool) (i j : Nat) (b : Bool) (h : i ≠ j) :
    (l.set i b).getD j true = l.getD j true := by
  induction l generalizing i j with
  | nil => rfl
  | cons x xs ih =>
    cases i with
    | zero =>
      cases j with
      | zero => exact absurd rfl h
      | succ j' => rfl
    | succ i' =>
      cases j with
      | zero => rfl
      | succ j' => simpa using ih i' j' (fun hh => h (by rw [hh]))

theorem set_false_of_getD_false (l : List Bool) (i : Nat)
    (h : l.getD i true = false) : l.set i false = l := by
  induction l generalizing i with
  | nil => rfl
  | cons x xs ih =>
    cases i with
    | zero => simp_all [List.getD_cons_zero]
    | succ j => simpa using ih j (by simpa using h)

theorem getD_replicate_true (n i : Nat) :
    (List.replicate n true).getD i true = true := by
  induction n generalizing i with
  | zero => rfl
  | succ m ih =>
    cases i with
    | zero => rfl
    | succ j => exact ih j

theorem tryLockJob_of_free (p : JobPool) (i : Nat)
    (h : p.hw_job_ptr_locks.getD i true = false) :
    tryLockJob p i =
      (true, { p with hw_job_ptr_locks := p.hw_job_ptr_locks.set i true }) := by
  rw [tryLockJob, if_pos h]

theorem tryLockJob_of_held (p : JobPool) (i : Nat)
    (h : p.hw_job_ptr_locks.getD i true = true) :
    tryLockJob p i = (false, p) := by
  rw [tryLockJob, if_neg (by rw [h]; exact fun hh => Bool.noConfusion hh)]

theorem acquireAttempts_allHeld (rands : Nat → Nat) (p : JobPool)
    (hall : ∀ i, p.hw_job_ptr_locks.getD i true = true) :
    ∀ pos fuel, acquireAttempts rands p pos fuel = (none, fuel + 1) := by
  intro pos fuel
  induction fuel generalizing pos with
  | zero =>
    show (let t := tryLockJob p (rands pos % p.max_hw_jobs)
          if t.1 then (some (rands pos % p.max_hw_jobs, t.2), 1) else (none, 1)) = (none, 1)
    rw [tryLockJob_of_held p _ (hall _)]
    rfl
  | succ f ih =>
    show (let t := tryLockJob p (rands pos % p.max_hw_jobs)
          if t.1 then (some (rands pos % p.max_hw_jobs, t.2), 1)
          else
            let r := acquireAttempts rands p (pos + 1) f
            (r.1, r.2 + 1)) = (none, f + 1 + 1)
    rw [tryLockJob_of_held p _ (hall _)]
    show (let r := acquireAttempts rands p (pos + 1) f
          (r.1, r.2 + 1)) = (none, f + 1 + 1)
    rw [ih (pos + 1)]

theorem acquireAttempts_success (rands : Nat → Nat) (p : JobPool) :
    ∀ pos fuel idx p',
      (acquireAttempts rands p pos fuel).1 = some (idx, p') →
      p.hw_job_ptr_locks.getD idx true = false ∧
      idx < p.hw_job_ptr_locks.length ∧
      p' = { p with hw_job_ptr_locks := p.hw_job_ptr_locks.set idx true } := by
  intro pos fuel
  induction fuel generalizing pos with
  | zero =>
    intro idx p' h
    cases hgd : p.hw_job_ptr_locks.getD (rands pos % p.max_hw_jobs) true with
    | false =>
      rw [show acquireAttempts rands p pos 0 =
            (let t := tryLockJob p (rands pos % p.max_hw_jobs)
             if t.1 then (some (rands pos % p.max_hw_jobs, t.2), 1) else (none, 1)) from rfl,
        tryLockJob_of_free p _ hgd] at h
      simp only [if_true] at h
      obtain ⟨h1, h2⟩ := Prod.mk.inj (Option.some.inj h)
      subst h1
      exact ⟨hgd, lt_length_of_getD_false _ _ hgd, h2.symm⟩
    | true =>
      rw [show acquireAttempts rands p pos 0 =
            (let t := tryLockJob p (rands pos % p.max_hw_jobs)
             if t.1 then (some (rands pos % p.max_hw_jobs, t.2), 1) else (none, 1)) from rfl,
        tryLockJob_of_held p _ hgd] at h
      exact absurd h (by simp)
  | succ f ih =>
    intro idx p' h
    cases hgd : p.hw_job_ptr_locks.getD (rands pos % p.max_hw_jobs) true with
    | false =>
      rw [show acquireAttempts rands p pos (f + 1) =
            (let t := tryLockJob p (rands pos % p.max_hw_jobs)
             if t.1 then (some (rands pos % p.max_hw_jobs, t.2), 1)
             else
               let r := acquireAttempts rands p (pos + 1) f
               (r.1, r.2 + 1)) from rfl,
        tryLockJob_of_free p _ hgd] at h
      simp only [if_true] at h
      obtain ⟨h1, h2⟩ := Prod.mk.inj (Option.some.inj h)
      subst h1
      exact ⟨hgd, lt_length_of_getD_false _ _ hgd, h2.symm⟩
    | true =>
      rw [show acquireAttempts rands p pos (f + 1) =
            (let t := tryLockJob p (rands pos % p.max_hw_jobs)
             if t.1 then (some (rands pos % p.max_hw_jobs, t.2), 1)
             else
               let r := acquireAttempts rands p (pos + 1) f
               (r.1, r.2 + 1)) from rfl,
        tryLockJob_of_held p _ hgd] at h
      exact ih (pos + 1) idx p' h

theorem acquireJob_spec (p : JobPool) (rands : Nat → Nat) (id idx : Nat)
    (p' : JobPool) (h : acquireJob p rands = some (id, idx, p')) :
    p.job_pool_ready = true ∧
    p.hw_job_ptr_locks.getD idx true = false ∧
    idx < p.hw_job_ptr_locks.length ∧
    p' = { p with hw_job_ptr_locks := p.hw_job_ptr_locks.set idx true } ∧
    id = p.max_hw_jobs - idx := by
  by_cases hr : isJobPoolReady p = true
  · rw [acquireJob, if_pos hr] at h
    cases ha : (acquireAttempts rands p 0 p.max_hw_jobs).1 with
    | none => rw [ha] at h; exact absurd h (by simp)
    | some v =>
      obtain ⟨i0, q0⟩ := v
      rw [ha] at h
      obtain ⟨hf, hlt, hp⟩ := acquireAttempts_success rands p 0 p.max_hw_jobs i0 q0 ha
      have he := Option.some.inj h
      obtain ⟨h1, h23⟩ := Prod.mk.inj he
      obtain ⟨h2, h3⟩ := Prod.mk.inj h23
      subst h2
      subst h3
      exact ⟨by simpa [isJobPoolReady] using hr, hf, hlt, hp, h1.symm⟩
  · rw [acquireJob, if_neg hr] at h
    exact absurd h (by simp)

/-- Claim C4: on a ready pool with every slot held, `acquireJob` fails after
at most `max_hw_jobs + 1` compare-exchange probes — it never blocks — and on
an unready pool it fails without probing at all. -/
theorem acquireJob_bounded (p : JobPool) (rands : Nat → Nat) :
    (p.job_pool_ready = true →
      p.hw_job_ptr_locks = List.replicate p.max_hw_jobs true →
      acquireJob p rands = none ∧ acquireProbes p rands ≤ p.max_hw_jobs + 1) ∧
    (p.job_pool_ready = false →
      acquireJob p rands = none ∧ acquireProbes p rands = 0) := by
  constructor
  · intro hr hall
    have hall' : ∀ i, p.hw_job_ptr_locks.getD i true = true := by
      intro i; rw [hall]; exact getD_replicate_true _ _
    have hatt := acquireAttempts_allHeld rands p hall' 0 p.max_hw_jobs
    constructor
    · rw [acquireJob, if_pos (by simpa [isJobPoolReady] using hr), hatt]
    · rw [acquireProbes, if_pos (by simpa [isJobPoolReady] using hr), hatt]
  · intro hr
    constructor
    · rw [acquireJob, if_neg (by simp [isJobPoolReady, hr])]
    · rw [acquireProbes, if_neg (by simp [isJobPoolReady, hr])]

theorem acquireJob_bounded_witness :
    (acquireJob { max_hw_jobs := 2, job_pool_ready := true, hw_job_ptr_locks := [true, true] }
        (fun _ => 0) = none ∧
      acquireProbes { max_hw_jobs := 2, job_pool_ready := true, hw_job_ptr_locks := [true, true] }
        (fun _ => 0) ≤ 3) ∧
    (acquireJob poolUnready (fun _ => 0) = none ∧
      acquireProbes poolUnready (fun _ => 0) = 0) :=
  ⟨(acquireJob_bounded _ _).1 rfl (by decide),
   (acquireJob_bounded poolUnready _).2 rfl⟩

/-- Claim C5, counterexample: on a ready pool of capacity 2 an acquire that
locks slot index 1 returns the handle `2 - 1 = 1`, which IS equal to the raw
index, refuting the claim that the handle never equals the index. -/
theorem acquireJob_id_eq_index :
    acquireJob poolTwoFree (fun _ => 1) =
      some (1, 1, { max_hw_jobs := 2, job_pool_ready := true,
                    hw_job_ptr_locks := [false, true] }) := by decide

/-- Claim C5 (amended): a successful acquire on a well-formed pool returns
the handle `max_hw_jobs - index` for the slot index it locked — a handle
that is never zero, though it can coincide with the raw index — and
`releaseJob` on that handle unlocks exactly that slot; `releaseJob` is a
no-op on a pool that is not ready. -/
theorem acquire_release_mapping (p : JobPool) (rands : Nat → Nat)
    (id idx : Nat) (p' : JobPool)
    (hlen : p.hw_job_ptr_locks.length = p.max_hw_jobs)
    (h : acquireJob p rands = some (id, idx, p')) :
    id = p.max_hw_jobs - idx ∧ idx < p.max_hw_jobs ∧ 1 ≤ id ∧
    id ≤ p.max_hw_jobs ∧ releaseJob p' id = unLockJob p' idx ∧
    ∀ (q : JobPool) (j : Nat), q.job_pool_ready = false → releaseJob q j = q := by
  obtain ⟨hr, hf, hlt, hp, hid⟩ := acquireJob_spec p rands id idx p' h
  rw [hlen] at hlt
  refine ⟨hid, hlt, by omega, by omega, ?_, ?_⟩
  · have hready' : isJobPoolReady p' = true := by
      rw [hp]; simpa [isJobPoolReady] using hr
    have hmax' : p'.max_hw_jobs = p.max_hw_jobs := by rw [hp]
    rw [releaseJob, if_pos hready', hmax', hid]
    congr 1
    omega
  · intro q j hq
    rw [releaseJob, if_neg (by simp [isJobPoolReady, hq])]

theorem acquire_release_mapping_witness :
    acquireJob poolTwoFree (fun _ => 0) =
      some (2, 0, { max_hw_jobs := 2, job_pool_ready := true,
                    hw_job_ptr_locks := [true, false] }) ∧
    ((2 : Nat) = 2 - 0 ∧ (0 : Nat) < 2 ∧ (1 : Nat) ≤ 2 ∧ (2 : Nat) ≤ 2 ∧
      releaseJob { max_hw_jobs := 2, job_pool_ready := true,
                   hw_job_ptr_locks := [true, false] } 2 =
        unLockJob { max_hw_jobs := 2, job_pool_ready := true,
                    hw_job_ptr_locks := [true, false] } 0 ∧
      ∀ (q : JobPool) (j : Nat), q.job_pool_ready = false → releaseJob q j = q) :=
  ⟨by decide, acquire_release_mapping poolTwoFree (fun _ => 0) 2 0 _ (by decide) (by decide)⟩

/-!
### Mutual exclusion of pool slots (claim C3)
-/

theorem erase_ne_snd (l : List (Nat × Nat)) (t i : Nat)
    (hnd : (l.map Prod.snd).Nodup) (hmem : (t, i) ∈ l) :
    ∀ x ∈ l.erase (t, i), x.2 ≠ i := by
  induction l with
  | nil => intro x hx; simp at hx
  | cons a tl ih =>
    by_cases ha : a = (t, i)
    · subst ha
      rw [List.erase_cons_head]
      intro x hx hxi
      simp only [List.map_cons, List.nodup_cons] at hnd
      exact hnd.1 (by rw [← hxi] at hnd ⊢; exact List.mem_map_of_mem Prod.snd hx)
    · rw [List.erase_cons_tail (by simp [ha])]
      have hmem' : (t, i) ∈ tl := by
        cases List.mem_cons.mp hmem with
        | inl hh => exact absurd hh.symm ha
        | inr hh => exact hh
      intro x hx
      cases List.mem_cons.mp hx with
      | inl hxa =>
        subst hxa
        simp only [List.map_cons, List.nodup_cons] at hnd
        intro hxi
        exact hnd.1 (by
          rw [hxi]
          have : i ∈ tl.map Prod.snd := by
            simpa using List.mem_map_of_mem Prod.snd hmem'
          simpa using this)
      | inr hxe =>
        exact ih (by simp only [List.map_cons, List.nodup_cons] at hnd; exact hnd.2) hmem' x hxe

theorem syncStep_inv (s : PoolSync) (ev : SyncEvent) (h : SyncInv s) :
    SyncInv (syncStep s ev) := by
  obtain ⟨hnd, hflag⟩ := h
  cases ev with
  | tryAcquire t i =>
    by_cases hfree : s.flags.getD i true = false
    · have hlt : i < s.flags.length := lt_length_of_getD_false _ _ hfree
      have hnoti : ∀ x ∈ s.holders, x.2 ≠ i := by
        intro x hx hxi
        have hh := hflag x hx
        rw [hxi, hfree] at hh
        exact Bool.noConfusion hh
      show SyncInv (if s.flags.getD i true = false then
        { flags := s.flags.set i true, holders := (t, i) :: s.holders } else s)
      rw [if_pos hfree]
      constructor
      · simp only [List.map_cons, List.nodup_cons]
        refine ⟨?_, hnd⟩
        intro hmem
        obtain ⟨x, hx, hxi⟩ := List.mem_map.mp hmem
        exact hnoti x hx hxi
      · intro x hx
        cases List.mem_cons.mp hx with
        | inl hxa => subst hxa; exact getD_set_self _ _ _ hlt
        | inr hxe =>
          by_cases hxi : x.2 = i
          · rw [hxi]; exact getD_set_self _ _ _ hlt
          · rw [getD_set_ne _ _ _ _ (fun hh => hxi hh.symm)]
            exact hflag x hxe
    · show SyncInv (if s.flags.getD i true = false then
        { flags := s.flags.set i true, holders := (t, i) :: s.holders } else s)
      rw [if_neg hfree]
      exact ⟨hnd, hflag⟩
  | release t i =>
    by_cases hmem : (t, i) ∈ s.holders
    · show SyncInv (if (t, i) ∈ s.holders then
        { flags := s.flags.set i false, holders := s.holders.erase (t, i) } else s)
      rw [if_pos hmem]
      constructor
      · exact hnd.sublist (List.Sublist.map Prod.snd (List.erase_sublist _ _))
      · intro x hx
        have hne := erase_ne_snd s.holders t i hnd hmem x hx
        rw [getD_set_ne _ _ _ _ (fun hh => hne hh.symm)]
        exact hflag x (List.mem_of_mem_erase hx)
    · show SyncInv (if (t, i) ∈ s.holders then
        { flags := s.flags.set i false, holders := s.holders.erase (t, i) } else s)
      rw [if_neg hmem]
      exact ⟨hnd, hflag⟩

theorem syncRun_foldl_inv (events : List SyncEvent) :
    ∀ s : PoolSync, SyncInv s → SyncInv (events.foldl syncStep s) := by
  induction events with
  | nil => intro s h; exact h
  | cons ev rest ih => intro s h; exact ih (syncStep s ev) (syncStep_inv s ev h)

/-- Claim C3: for every interleaving of atomic compare-exchange and release
events by any number of threads against one shared pool, no slot index ever
has two live holders — two acquires can never both succeed on the same slot
before one of them releases it. -/
theorem pool_slot_mutual_exclusion (n : Nat) (events : List SyncEvent) :
    ((syncRun n events).holders.map Prod.snd).Nodup :=
  (syncRun_foldl_inv events (syncInit n) (by simp [SyncInv, syncInit])).1

/-!
### Orchestrator fallback (claims C1, C6, C8)
-/

theorem swDecompressEffect_result (sw : SwCodec) (source : List Nat) (dest : Nat)
    (n : Nat) (p : JobPool) (pending : List (Nat × QplJobRec)) :
    (swDecompressEffect sw source dest n p pending).result =
      (sw.decompress source n).map DecompressResult.bytes := by
  cases h : sw.decompress source n <;> simp [swDecompressEffect, h, Except.map]

theorem swDecompressEffect_pending (sw : SwCodec) (source : List Nat) (dest : Nat)
    (n : Nat) (p : JobPool) (pending : List (Nat × QplJobRec)) :
    (swDecompressEffect sw source dest n p pending).pending = pending := by
  cases h : sw.decompress source n <;> simp [swDecompressEffect, h]

theorem swDecompressEffect_swRuns (sw : SwCodec) (source : List Nat) (dest : Nat)
    (n : Nat) (p : JobPool) (pending : List (Nat × QplJobRec)) :
    (swDecompressEffect sw source dest n p pending).swRuns =
      [{ source := source, source_size := source.length
         dest := dest, uncompressed_size := n }] := by
  cases h : sw.decompress source n <;> simp [swDecompressEffect, h]

theorem hwDoDecompressDataAsynchronous_some (p : JobPool) (rands : Nat → Nat)
    (dev : HwDecompressOutcome) (source : List Nat) (dest : Nat) (n : Nat)
    (pending : List (Nat × QplJobRec)) (job_id : Nat) (p' : JobPool)
    (pending' : List (Nat × QplJobRec))
    (h : hwDoDecompressDataAsynchronous p rands dev source dest n pending =
      (some job_id, p', pending')) :
    pending' = pending ++
      [(job_id, { next_in := source, available_in := source.length, next_out := dest
                  available_out := n, polls := dev.polls, finalOk := dev.finalOk
                  output := dev.output })] := by
  rw [hwDoDecompressDataAsynchronous] at h
  cases ha : acquireJob p rands with
  | none => rw [ha] at h; exact absurd (congrArg Prod.fst h) (by simp)
  | some v =>
    obtain ⟨id0, idx0, q0⟩ := v
    rw [ha] at h
    by_cases hs : dev.submitOk = true
    · simp only [hs, if_true] at h
      have h1 := congrArg Prod.fst h
      simp only at h1
      have h2 := congrArg (fun z => z.2.2) h
      simp only at h2
      rw [← h2, Option.some.inj h1]
    · simp only [hs, if_false, Bool.false_eq_true] at h
      exact absurd (congrArg Prod.fst h) (by simp)

theorem hwDoDecompressDataAsynchronous_none (p : JobPool) (rands : Nat → Nat)
    (dev : HwDecompressOutcome) (source : List Nat) (dest : Nat) (n : Nat)
    (pending : List (Nat × QplJobRec))
    (h : (hwDoDecompressDataAsynchronous p rands dev source dest n pending).1 = none) :
    (hwDoDecompressDataAsynchronous p rands dev source dest n pending).2.2 = pending := by
  rw [hwDoDecompressDataAsynchronous] at h ⊢
  cases ha : acquireJob p rands with
  | none => rfl
  | some v =>
    obtain ⟨id0, idx0, q0⟩ := v
    rw [ha] at h
    by_cases hs : dev.submitOk = true
    · simp [hs] at h
    · simp [hs]

theorem hwDoCompressData_some (p : JobPool) (rands : Nat → Nat)
    (dev : HwCompressOutcome) (source : List Nat) (dest : Nat) (dest_size : Nat)
    (v : Nat) (h : (hwDoCompressData p rands dev source dest dest_size).1 = some v) :
    v = dev.total_out := by
  rw [hwDoCompressData] at h
  cases ha : acquireJob p rands with
  | none => rw [ha] at h; exact absurd h (by simp)
  | some w =>
    obtain ⟨id0, idx0, q0⟩ := w
    rw [ha] at h
    by_cases he : dev.execOk = true
    · simp only [he, if_true] at h
      exact (Option.some.inj h).symm
    · simp [he] at h

/-- Claim C1: when the pool is not ready, or every hardware attempt of the
call fails (acquire, submit, execute or poll — all of which make the
hardware engine return its `RET_ERROR` sentinel), compress and decompress
complete by retrying the identical operation on the software path: the
result — in particular the decompressed bytes — is exactly what the
all-software path produces for the same input, so no hardware-path failure
reaches the caller, and only a software execution failure surfaces as the
call's error. -/
theorem fallback_transparency (mode : CodecMode) (p : JobPool) (rands : Nat → Nat)
    (cdev : HwCompressOutcome) (devS devA : HwDecompressOutcome) (sw : SwCodec)
    (source : List Nat) (dest : Nat) (n : Nat) (pending : List (Nat × QplJobRec))
    (hcfail : isJobPoolReady p = false ∨
      (hwDoCompressData p rands cdev source dest (getMaxCompressedDataSize source.length)).1 = none)
    (hdfail : isJobPoolReady p = false ∨
      ((hwDoDecompressDataSynchronous p rands devS source n).1 = none ∧
       (hwDoDecompressDataAsynchronous p rands devA source dest n pending).1 = none)) :
    (ccDoCompressData p rands cdev sw source dest).1 =
      sw.compress source (getMaxCompressedDataSize source.length) ∧
    (ccDoDecompressData mode p rands devS devA sw source dest n pending).result =
      (sw.decompress source n).map DecompressResult.bytes := by
  constructor
  · by_cases hr : isJobPoolReady p = true
    · have hn : (hwDoCompressData p rands cdev source dest
          (getMaxCompressedDataSize source.length)).1 = none := by
        cases hcfail with
        | inl hh => rw [hr] at hh; exact absurd hh (by simp)
        | inr hh => exact hh
      rw [ccDoCompressData, if_pos hr]
      cases hw : hwDoCompressData p rands cdev source dest
          (getMaxCompressedDataSize source.length) with
      | mk o p2 =>
        rw [hw] at hn
        simp only at hn
        subst hn
        rfl
    · rw [ccDoCompressData, if_neg hr]
  · cases mode with
    | Synchronous =>
      by_cases hr : isJobPoolReady p = true
      · have hn : (hwDoDecompressDataSynchronous p rands devS source n).1 = none := by
          cases hdfail with
          | inl hh => rw [hr] at hh; exact absurd hh (by simp)
          | inr hh => exact hh.1
        simp only [ccDoDecompressData]
        rw [if_pos hr]
        cases hw : hwDoDecompressDataSynchronous p rands devS source n with
        | mk o p2 =>
          rw [hw] at hn
          simp only at hn
          subst hn
          exact swDecompressEffect_result sw source dest n p2 pending
      · simp only [ccDoDecompressData]
        rw [if_neg hr]
        exact swDecompressEffect_result sw source dest n p pending
    | Asynchronous =>
      by_cases hr : isJobPoolReady p = true
      · have hn : (hwDoDecompressDataAsynchronous p rands devA source dest n pending).1 = none := by
          cases hdfail with
          | inl hh => rw [hr] at hh; exact absurd hh (by simp)
          | inr hh => exact hh.2
        simp only [ccDoDecompressData]
        rw [if_pos hr]
        cases hw : hwDoDecompressDataAsynchronous p rands devA source dest n pending with
        | mk o rest =>
          obtain ⟨p2, pend2⟩ := rest
          rw [hw] at hn
          simp only at hn
          subst hn
          exact swDecompressEffect_result sw source dest n p2 pend2
      · simp only [ccDoDecompressData]
        rw [if_neg hr]
        exact swDecompressEffect_result sw source dest n p pending
    | SoftwareFallback =>
      simp only [ccDoDecompressData]
      exact swDecompressEffect_result sw source dest n p pending

theorem fallback_transparency_witness :
    (ccDoCompressData poolUnready (fun _ => 0) { execOk := true, total_out := 0 }
        swTrivial [1, 2] 0).1 =
      swTrivial.compress [1, 2] (getMaxCompressedDataSize 2) ∧
    (ccDoDecompressData CodecMode.Synchronous poolUnready (fun _ => 0)
        { submitOk := true, polls := 0, finalOk := true, output := [] }
        { submitOk := true, polls := 0, finalOk := true, output := [] }
        swTrivial [1, 2] 0 4 []).result =
      (swTrivial.decompress [1, 2] 4).map DecompressResult.bytes := by
  have hmain := fallback_transparency CodecMode.Synchronous poolUnready (fun _ => 0)
    { execOk := true, total_out := 0 }
    { submitOk := true, polls := 0, finalOk := true, output := [] }
    { submitOk := true, polls := 0, finalOk := true, output := [] }
    swTrivial [1, 2] 0 4 [] (Or.inl (by decide)) (Or.inl (by decide))
  have hlen : ([1, 2] : List Nat).length = 2 := by decide
  constructor
  · rw [← hlen]; exact hmain.1
  · exact hmain.2

/-- Claim C6: in Asynchronous mode, a decompress whose hardware submission
succeeds performs no software decompress — its result is the deferred handle
and the new job is appended behind the untouched previously submitted
entries; when the pool is not ready or the submission fails, exactly one
synchronous software decompress runs for that call and the pending map is
left unchanged. -/
theorem async_mode_degradation (p : JobPool) (rands : Nat → Nat)
    (devS devA : HwDecompressOutcome) (sw : SwCodec) (source : List Nat)
    (dest : Nat) (n : Nat) (pending : List (Nat × QplJobRec)) :
    (∀ job_id p' pending',
      isJobPoolReady p = true →
      hwDoDecompressDataAsynchronous p rands devA source dest n pending =
        (some job_id, p', pending') →
      (ccDoDecompressData CodecMode.Asynchronous p rands devS devA sw source dest n
          pending).swRuns = [] ∧
      (ccDoDecompressData CodecMode.Asynchronous p rands devS devA sw source dest n
          pending).pending = pending ++
        [(job_id, { next_in := source, available_in := source.length, next_out := dest
                    available_out := n, polls := devA.polls, finalOk := devA.finalOk
                    output := devA.output })] ∧
      (ccDoDecompressData CodecMode.Asynchronous p rands devS devA sw source dest n
          pending).result = Except.ok (DecompressResult.deferred job_id)) ∧
    ((isJobPoolReady p = false ∨
        (hwDoDecompressDataAsynchronous p rands devA source dest n pending).1 = none) →
      (ccDoDecompressData CodecMode.Asynchronous p rands devS devA sw source dest n
          pending).swRuns =
        [{ source := source, source_size := source.length
           dest := dest, uncompressed_size := n }] ∧
      (ccDoDecompressData CodecMode.Asynchronous p rands devS devA sw source dest n
          pending).pending = pending) := by
  constructor
  · intro job_id p' pending' hready heq
    have hpend := hwDoDecompressDataAsynchronous_some p rands devA source dest n
      pending job_id p' pending' heq
    simp only [ccDoDecompressData]
    rw [if_pos hready, heq]
    exact ⟨rfl, by rw [← hpend], rfl⟩
  · intro hfail
    by_cases hr : isJobPoolReady p = true
    · have hn : (hwDoDecompressDataAsynchronous p rands devA source dest n pending).1 = none := by
        cases hfail with
        | inl hh => rw [hr] at hh; exact absurd hh (by simp)
        | inr hh => exact hh
      have hpend := hwDoDecompressDataAsynchronous_none p rands devA source dest n pending hn
      simp only [ccDoDecompressData]
      rw [if_pos hr]
      cases hw : hwDoDecompressDataAsynchronous p rands devA source dest n pending with
      | mk o rest =>
        obtain ⟨p2, pend2⟩ := rest
        rw [hw] at hn hpend
        simp only at hn hpend
        subst hn
        refine ⟨swDecompressEffect_swRuns sw source dest n p2 pend2, ?_⟩
        rw [swDecompressEffect_pending sw source dest n p2 pend2]
        exact hpend
    · simp only [ccDoDecompressData]
      rw [if_neg hr]
      exact ⟨swDecompressEffect_swRuns sw source dest n p pending,
             swDecompressEffect_pending sw source dest n p pending⟩

theorem async_mode_degradation_witness :
    (ccDoDecompressData CodecMode.Asynchronous poolUnready (fun _ => 0)
        { submitOk := true, polls := 0, finalOk := true, output := [] }
        { submitOk := true, polls := 0, finalOk := true, output := [] }
        swTrivial [5] 7 3 []).swRuns =
      [{ source := [5], source_size := 1, dest := 7, uncompressed_size := 3 }] ∧
    (ccDoDecompressData CodecMode.Asynchronous poolUnready (fun _ => 0)
        { submitOk := true, polls := 0, finalOk := true, output := [] }
        { submitOk := true, polls := 0, finalOk := true, output := [] }
        swTrivial [5] 7 3 []).pending = [] := by
  have hmain := (async_mode_degradation poolUnready (fun _ => 0)
    { submitOk := true, polls := 0, finalOk := true, output := [] }
    { submitOk := true, polls := 0, finalOk := true, output := [] }
    swTrivial [5] 7 3 []).2 (Or.inl (by decide))
  exact ⟨by rw [hmain.1]; rfl, hmain.2⟩

/-- Claim C8: `getMaxCompressedDataSize` is a pure worst-case bound
(13 already at length 0), both compress paths receive it as the destination
capacity (visible in `ccDoCompressData`), and — given that the execution
collaborators respect the destination capacity they are handed, which is the
external engine's contract — the compressed size either path returns never
exceeds the bound. -/
theorem max_compressed_size_bound (p : JobPool) (rands : Nat → Nat)
    (dev : HwCompressOutcome) (sw : SwCodec) (source : List Nat) (dest : Nat)
    (hhw : dev.total_out ≤ getMaxCompressedDataSize source.length)
    (hsw : ∀ cap v, sw.compress source cap = Except.ok v → v ≤ cap) :
    getMaxCompressedDataSize 0 = 13 ∧
    ∀ v, (ccDoCompressData p rands dev sw source dest).1 = Except.ok v →
      v ≤ getMaxCompressedDataSize source.length := by
  refine ⟨by decide, ?_⟩
  intro v hv
  by_cases hr : isJobPoolReady p = true
  · rw [ccDoCompressData, if_pos hr] at hv
    cases hw : hwDoCompressData p rands dev source dest
        (getMaxCompressedDataSize source.length) with
    | mk o p2 =>
      rw [hw] at hv
      cases o with
      | some res =>
        have hres : res = dev.total_out :=
          hwDoCompressData_some p rands dev source dest _ res (by rw [hw])
        have hveq : res = v := Except.ok.inj hv
        rw [← hveq, hres]
        exact hhw
      | none => exact hsw _ v hv
  · rw [ccDoCompressData, if_neg hr] at hv
    exact hsw _ v hv

/-!
### The asynchronous drain (claim C2)
-/

theorem perm_rotate {α : Type} (xs ys zs : List α) (a : α) :
    (xs ++ (a :: ys) ++ zs).Perm (xs ++ ys ++ (a :: zs)) := by
  have h1 : xs ++ (a :: ys) ++ zs = xs ++ a :: (ys ++ zs) := by
    simp
  have h2 : xs ++ ys ++ (a :: zs) = xs ++ (ys ++ a :: zs) := by
    simp
  rw [h1, h2]
  exact List.Perm.append_left xs List.perm_middle.symm

theorem perm_snoc_rotate {α : Type} (xs ys zs : List α) (a : α) :
    ((xs ++ [a]) ++ ys ++ zs).Perm (xs ++ ys ++ (a :: zs)) := by
  have h1 : (xs ++ [a]) ++ ys ++ zs = xs ++ (a :: ys) ++ zs := by
    simp [List.append_assoc]
  rw [h1]
  exact perm_rotate xs ys zs a

theorem failCalls_nil : failCalls [] = [] := rfl

theorem failCalls_cons_ok (id : Nat) (jr : QplJobRec) (l : List (Nat × QplJobRec))
    (h : jr.finalOk = true) : failCalls ((id, jr) :: l) = failCalls l := by
  simp [failCalls, List.filter_cons, h]

theorem failCalls_cons_fail (id : Nat) (jr : QplJobRec) (l : List (Nat × QplJobRec))
    (h : jr.finalOk = false) :
    failCalls ((id, jr) :: l) = failCall jr :: failCalls l := by
  simp [failCalls, List.filter_cons, h]

theorem failCalls_perm {l₁ l₂ : List (Nat × QplJobRec)} (h : l₁.Perm l₂) :
    (failCalls l₁).Perm (failCalls l₂) :=
  List.Perm.map _ (List.Perm.filter _ h)

theorem flushGo_drains (sw : SwCodec) (pool : JobPool)
    (processed remaining : List (Nat × QplJobRec)) (released : List Nat)
    (swRuns : List SwCall) :
    (∀ e ∈ processed ++ remaining, e.2.finalOk = false →
      (sw.decompress e.2.next_in e.2.available_out).isOk = true) →
    (flushGo sw pool processed remaining released swRuns).result = Except.ok () ∧
    (flushGo sw pool processed remaining released swRuns).map = [] ∧
    (flushGo sw pool processed remaining released swRuns).released.Perm
      (released ++ processed.map Prod.fst ++ remaining.map Prod.fst) ∧
    (flushGo sw pool processed remaining released swRuns).swRuns.Perm
      (swRuns ++ failCalls processed ++ failCalls remaining) := by
  refine flushGo.induct sw
    (fun pool processed remaining released swRuns =>
      (∀ e ∈ processed ++ remaining, e.2.finalOk = false →
        (sw.decompress e.2.next_in e.2.available_out).isOk = true) →
      (flushGo sw pool processed remaining released swRuns).result = Except.ok () ∧
      (flushGo sw pool processed remaining released swRuns).map = [] ∧
      (flushGo sw pool processed remaining released swRuns).released.Perm
        (released ++ processed.map Prod.fst ++ remaining.map Prod.fst) ∧
      (flushGo sw pool processed remaining released swRuns).swRuns.Perm
        (swRuns ++ failCalls processed ++ failCalls remaining))
    ?_ ?_ ?_ ?_ ?_ ?_ pool processed remaining released swRuns
  · intro pool released swRuns _hsw
    refine ⟨?_, ?_, ?_, ?_⟩
    · simp only [flushGo]
    · simp only [flushGo]
    · simp only [flushGo, List.map_nil, List.append_nil]
      exact List.Perm.refl _
    · simp only [flushGo, failCalls_nil, List.append_nil]
      exact List.Perm.refl _
  · intro pool released swRuns q qs ih hsw
    simp only [flushGo]
    have hsw' : ∀ e ∈ ([] : List (Nat × QplJobRec)) ++ (q :: qs).reverse,
        e.2.finalOk = false →
        (sw.decompress e.2.next_in e.2.available_out).isOk = true := by
      intro e he
      apply hsw e
      simp only [List.nil_append, List.mem_reverse] at he
      simp only [List.mem_append, List.mem_cons]
      simp only [List.mem_cons] at he
      tauto
    obtain ⟨h1, h2, h3, h4⟩ := ih hsw'
    refine ⟨h1, h2, ?_, ?_⟩
    · refine h3.trans ?_
      simp only [List.map_nil, List.nil_append, List.append_nil, List.map_reverse]
      exact List.Perm.append_left released (List.reverse_perm _)
    · refine h4.trans ?_
      simp only [failCalls_nil, List.append_nil, List.nil_append]
      exact List.Perm.append_left swRuns (failCalls_perm (List.reverse_perm _))
  · intro pool processed released swRuns job_id jr rest hpolls ih hsw
    simp only [flushGo]
    rw [dif_pos hpolls]
    have hsw' : ∀ e ∈ ((job_id, { jr with polls := jr.polls - 1 }) :: processed) ++ rest,
        e.2.finalOk = false →
        (sw.decompress e.2.next_in e.2.available_out).isOk = true := by
      intro e he
      rcases List.mem_append.mp he with hh | hh
      · rcases List.mem_cons.mp hh with hh' | hh'
        · subst hh'
          exact fun hf => hsw (job_id, jr) (by simp) hf
        · exact hsw e (by simp only [List.mem_append, List.mem_cons]; tauto)
      · exact hsw e (by simp only [List.mem_append, List.mem_cons]; tauto)
    obtain ⟨h1, h2, h3, h4⟩ := ih hsw'
    refine ⟨h1, h2, ?_, ?_⟩
    · exact h3.trans
        (perm_rotate released (processed.map Prod.fst) (rest.map Prod.fst) job_id)
    · rcases Bool.eq_false_or_eq_true jr.finalOk with hok | hok
      · rw [failCalls_cons_ok job_id jr rest hok]
        rw [failCalls_cons_ok job_id { jr with polls := jr.polls - 1 } processed hok] at h4
        exact h4
      · rw [failCalls_cons_fail job_id jr rest hok]
        rw [failCalls_cons_fail job_id { jr with polls := jr.polls - 1 } processed hok] at h4
        exact h4.trans
          (perm_rotate swRuns (failCalls processed) (failCalls rest) (failCall jr))
  · intro pool processed released swRuns job_id jr rest hnp hok ih hsw
    simp only [flushGo]
    rw [dif_neg hnp, if_pos hok]
    have hsw' : ∀ e ∈ processed ++ rest, e.2.finalOk = false →
        (sw.decompress e.2.next_in e.2.available_out).isOk = true := by
      intro e he
      exact hsw e (by
        simp only [List.mem_append, List.mem_cons] at he ⊢
        tauto)
    obtain ⟨h1, h2, h3, h4⟩ := ih hsw'
    refine ⟨h1, h2, ?_, ?_⟩
    · exact h3.trans
        (perm_snoc_rotate released (processed.map Prod.fst) (rest.map Prod.fst) job_id)
    · rw [failCalls_cons_ok job_id jr rest hok]
      exact h4
  · intro pool processed released swRuns job_id jr rest hnp hnok a hswa ih hsw
    have hok : jr.finalOk = false := by
      cases hjr : jr.finalOk with
      | false => rfl
      | true => exact absurd hjr hnok
    simp only [flushGo]
    rw [dif_neg hnp, if_neg hnok, hswa]
    have hsw' : ∀ e ∈ processed ++ rest, e.2.finalOk = false →
        (sw.decompress e.2.next_in e.2.available_out).isOk = true := by
      intro e he
      exact hsw e (by
        simp only [List.mem_append, List.mem_cons] at he ⊢
        tauto)
    obtain ⟨h1, h2, h3, h4⟩ := ih hsw'
    refine ⟨h1, h2, ?_, ?_⟩
    · exact h3.trans
        (perm_snoc_rotate released (processed.map Prod.fst) (rest.map Prod.fst) job_id)
    · rw [failCalls_cons_fail job_id jr rest hok]
      exact h4.trans
        (perm_snoc_rotate swRuns (failCalls processed) (failCalls rest) (failCall jr))
  · intro pool processed released swRuns job_id jr rest hnp hnok e hswe hsw
    exfalso
    have hok : jr.finalOk = false := by
      cases hjr : jr.finalOk with
      | false => rfl
      | true => exact absurd hjr hnok
    have hh : (sw.decompress jr.next_in jr.available_out).isOk = true :=
      hsw (job_id, jr) (by simp) hok
    rw [hswe] at hh
    exact Bool.noConfusion hh


theorem releaseJob_ready (p : JobPool) (id : Nat) :
    (releaseJob p id).job_pool_ready = p.job_pool_ready := by
  rw [releaseJob]; split <;> rfl

theorem releaseJob_max (p : JobPool) (id : Nat) :
    (releaseJob p id).max_hw_jobs = p.max_hw_jobs := by
  rw [releaseJob]; split <;> rfl

theorem releaseJob_len (p : JobPool) (id : Nat) :
    (releaseJob p id).hw_job_ptr_locks.length = p.hw_job_ptr_locks.length := by
  rw [releaseJob]
  split
  · simp [unLockJob]
  · rfl

theorem set_of_length_le (l : List Bool) (i : Nat) (b : Bool) (h : l.length ≤ i) :
    l.set i b = l := by
  induction l generalizing i with
  | nil => rfl
  | cons x xs ih =>
    cases i with
    | zero => simp at h
    | succ j => simpa using ih j (by simpa using h)

theorem slotFreeIn_releaseJob_self (p : JobPool) (id : Nat)
    (hready : p.job_pool_ready = true)
    (hlen : p.hw_job_ptr_locks.length = p.max_hw_jobs)
    (h1 : 1 ≤ id) (h2 : id ≤ p.max_hw_jobs) :
    slotFreeIn (releaseJob p id) id := by
  have hq : releaseJob p id = unLockJob p (p.max_hw_jobs - id) := by
    rw [releaseJob, if_pos (by simpa [isJobPoolReady] using hready)]
  rw [slotFreeIn, hq]
  show (p.hw_job_ptr_locks.set (p.max_hw_jobs - id) false).getD (p.max_hw_jobs - id) true = false
  exact getD_set_self _ _ _ (by omega)

theorem slotFreeIn_releaseJob_mono (p : JobPool) (id j : Nat)
    (h : slotFreeIn p j) : slotFreeIn (releaseJob p id) j := by
  rw [releaseJob]
  split
  · show (p.hw_job_ptr_locks.set (p.max_hw_jobs - id) false).getD (p.max_hw_jobs - j) true = false
    by_cases heq : p.max_hw_jobs - id = p.max_hw_jobs - j
    · rw [heq]
      by_cases hlt : p.max_hw_jobs - j < p.hw_job_ptr_locks.length
      · exact getD_set_self _ _ _ hlt
      · rw [set_of_length_le _ _ _ (by omega)]
        exact h
    · rw [getD_set_ne _ _ _ _ heq]
      exact h
  · exact h

theorem flushGo_frees (sw : SwCodec) (pool : JobPool)
    (processed remaining : List (Nat × QplJobRec)) (released : List Nat)
    (swRuns : List SwCall) :
    pool.job_pool_ready = true →
    pool.hw_job_ptr_locks.length = pool.max_hw_jobs →
    (∀ e ∈ processed ++ remaining, 1 ≤ e.1 ∧ e.1 ≤ pool.max_hw_jobs) →
    (∀ e ∈ processed ++ remaining, e.2.finalOk = false →
      (sw.decompress e.2.next_in e.2.available_out).isOk = true) →
    ∀ id, (slotFreeIn pool id ∨ id ∈ (processed ++ remaining).map Prod.fst) →
      slotFreeIn (flushGo sw pool processed remaining released swRuns).pool id := by
  refine flushGo.induct sw
    (fun pool processed remaining released swRuns =>
      pool.job_pool_ready = true →
      pool.hw_job_ptr_locks.length = pool.max_hw_jobs →
      (∀ e ∈ processed ++ remaining, 1 ≤ e.1 ∧ e.1 ≤ pool.max_hw_jobs) →
      (∀ e ∈ processed ++ remaining, e.2.finalOk = false →
        (sw.decompress e.2.next_in e.2.available_out).isOk = true) →
      ∀ id, (slotFreeIn pool id ∨ id ∈ (processed ++ remaining).map Prod.fst) →
        slotFreeIn (flushGo sw pool processed remaining released swRuns).pool id)
    ?_ ?_ ?_ ?_ ?_ ?_ pool processed remaining released swRuns
  · intro pool released swRuns _ _ _ _ id hid
    simp only [flushGo]
    rcases hid with hh | hh
    · exact hh
    · simp at hh
  · intro pool released swRuns q qs ih hready hlen hids hsw id hid
    simp only [flushGo]
    apply ih hready hlen
      (fun e he => hids e (by
        simp only [List.nil_append, List.mem_reverse] at he
        simp only [List.mem_append]
        tauto))
      (fun e he => hsw e (by
        simp only [List.nil_append, List.mem_reverse] at he
        simp only [List.mem_append]
        tauto))
      id
    rcases hid with hh | hh
    · exact Or.inl hh
    · refine Or.inr ?_
      simp only [List.map_append, List.map_nil, List.append_nil, List.mem_append] at hh ⊢
      simp only [List.map_reverse, List.mem_reverse, List.nil_append,
        List.not_mem_nil, false_or]
      tauto
  · intro pool processed released swRuns job_id jr rest hpolls ih hready hlen hids hsw id hid
    simp only [flushGo]
    rw [dif_pos hpolls]
    apply ih hready hlen
      (fun e he => by
        rcases List.mem_append.mp he with hh | hh
        · rcases List.mem_cons.mp hh with hh' | hh'
          · subst hh'
            exact hids (job_id, jr) (by simp)
          · exact hids e (by simp only [List.mem_append, List.mem_cons]; tauto)
        · exact hids e (by simp only [List.mem_append, List.mem_cons]; tauto))
      (fun e he => by
        rcases List.mem_append.mp he with hh | hh
        · rcases List.mem_cons.mp hh with hh' | hh'
          · subst hh'
            exact fun hf => hsw (job_id, jr) (by simp) hf
          · exact hsw e (by simp only [List.mem_append, List.mem_cons]; tauto)
        · exact hsw e (by simp only [List.mem_append, List.mem_cons]; tauto))
      id
    rcases hid with hh | hh
    · exact Or.inl hh
    · refine Or.inr ?_
      simp only [List.map_append, List.map_cons, List.mem_append, List.mem_cons] at hh ⊢
      tauto
  · intro pool processed released swRuns job_id jr rest hnp hok ih hready hlen hids hsw id hid
    simp only [flushGo]
    rw [dif_neg hnp, if_pos hok]
    have hjid := hids (job_id, jr) (by simp)
    apply ih (by rw [releaseJob_ready]; exact hready)
      (by rw [releaseJob_len, releaseJob_max]; exact hlen)
      (fun e he => by
        rw [releaseJob_max]
        exact hids e (by simp only [List.mem_append, List.mem_cons] at he ⊢; tauto))
      (fun e he =>
        hsw e (by simp only [List.mem_append, List.mem_cons] at he ⊢; tauto))
      id
    rcases hid with hh | hh
    · exact Or.inl (slotFreeIn_releaseJob_mono pool job_id id hh)
    · simp only [List.map_append, List.map_cons, List.mem_append, List.mem_cons] at hh
      rcases hh with hh | hh | hh
      · exact Or.inr (by simp only [List.map_append, List.mem_append]; tauto)
      · rw [hh]
        exact Or.inl (slotFreeIn_releaseJob_self pool job_id hready hlen hjid.1 hjid.2)
      · exact Or.inr (by simp only [List.map_append, List.mem_append]; tauto)
  · intro pool processed released swRuns job_id jr rest hnp hnok a hswa ih hready hlen hids hsw id hid
    simp only [flushGo]
    rw [dif_neg hnp, if_neg hnok, hswa]
    have hjid := hids (job_id, jr) (by simp)
    apply ih (by rw [releaseJob_ready]; exact hready)
      (by rw [releaseJob_len, releaseJob_max]; exact hlen)
      (fun e he => by
        rw [releaseJob_max]
        exact hids e (by simp only [List.mem_append, List.mem_cons] at he ⊢; tauto))
      (fun e he =>
        hsw e (by simp only [List.mem_append, List.mem_cons] at he ⊢; tauto))
      id
    rcases hid with hh | hh
    · exact Or.inl (slotFreeIn_releaseJob_mono pool job_id id hh)
    · simp only [List.map_append, List.map_cons, List.mem_append, List.mem_cons] at hh
      rcases hh with hh | hh | hh
      · exact Or.inr (by simp only [List.map_append, List.mem_append]; tauto)
      · rw [hh]
        exact Or.inl (slotFreeIn_releaseJob_self pool job_id hready hlen hjid.1 hjid.2)
      · exact Or.inr (by simp only [List.map_append, List.mem_append]; tauto)
  · intro pool processed released swRuns job_id jr rest hnp hnok e hswe _hready _hlen _hids hsw id _hid
    exfalso
    have hok : jr.finalOk = false := by
      cases hjr : jr.finalOk with
      | false => rfl
      | true => exact absurd hjr hnok
    have hh : (sw.decompress jr.next_in jr.available_out).isOk = true :=
      hsw (job_id, jr) (by simp) hok
    rw [hswe] at hh
    exact Bool.noConfusion hh


/-- Claim C2, counterexample: a pending map holding one job that has already
left the in-progress state with a failure status, drained with a software
engine whose re-run throws — the exception propagates out of the drain, so
`flushAsynchronousDecompressRequests` returns with the entry still in the
map and its slot still held, refuting termination with an empty map in all
cases. -/
theorem flush_pending_not_always_empty :
    (hwFlushAsynchronousDecompressRequests swFailing poolOneHeld [(1, jrFailed)]).map =
      [(1, jrFailed)] ∧
    (hwFlushAsynchronousDecompressRequests swFailing poolOneHeld [(1, jrFailed)]).result =
      Except.error 3 ∧
    (hwFlushAsynchronousDecompressRequests swFailing poolOneHeld [(1, jrFailed)]).pool =
      poolOneHeld := by
  refine ⟨?_, ?_, ?_⟩ <;>
    simp [hwFlushAsynchronousDecompressRequests, flushGo, swFailing, jrFailed]

/-- Claim C2 (amended): for every pending-map state whose jobs all
eventually leave the in-progress status, and in which every failure-status
job's software re-run (on the recorded source, source length, destination
and destination length) completes without throwing, the drain terminates
normally with an empty map, releases every registered handle exactly once,
re-runs the software decompress exactly for the failure-status entries with
their recorded fields, and frees every registered entry's slot.  (A
software re-run that throws propagates out of the drain instead, leaving the
remaining entries in the map.) -/
theorem flush_pending_drains (sw : SwCodec) (p : JobPool)
    (m : List (Nat × QplJobRec))
    (hready : p.job_pool_ready = true)
    (hlen : p.hw_job_ptr_locks.length = p.max_hw_jobs)
    (hids : ∀ e ∈ m, 1 ≤ e.1 ∧ e.1 ≤ p.max_hw_jobs)
    (hsw : ∀ e ∈ m, e.2.finalOk = false →
      (sw.decompress e.2.next_in e.2.available_out).isOk = true) :
    (hwFlushAsynchronousDecompressRequests sw p m).result = Except.ok () ∧
    (hwFlushAsynchronousDecompressRequests sw p m).map = [] ∧
    (hwFlushAsynchronousDecompressRequests sw p m).released.Perm (m.map Prod.fst) ∧
    (hwFlushAsynchronousDecompressRequests sw p m).swRuns.Perm (failCalls m) ∧
    ∀ e ∈ m, slotFreeIn (hwFlushAsynchronousDecompressRequests sw p m).pool e.1 := by
  have hd := flushGo_drains sw p [] m [] [] (by simpa using hsw)
  have hf := flushGo_frees sw p [] m [] [] hready hlen (by simpa using hids)
    (by simpa using hsw)
  rw [hwFlushAsynchronousDecompressRequests]
  refine ⟨hd.1, hd.2.1, ?_, ?_, ?_⟩
  · have := hd.2.2.1
    simpa using this
  · have := hd.2.2.2
    simpa [failCalls_nil] using this
  · intro e he
    exact hf e.1 (Or.inr (by
      simp only [List.nil_append]
      exact List.mem_map_of_mem Prod.fst he))

theorem flush_pending_drains_witness :
    (hwFlushAsynchronousDecompressRequests swTrivial poolTwoHeld
        [(1, jrSlow), (2, jrFailed)]).result = Except.ok () ∧
    (hwFlushAsynchronousDecompressRequests swTrivial poolTwoHeld
        [(1, jrSlow), (2, jrFailed)]).map = [] ∧
    (hwFlushAsynchronousDecompressRequests swTrivial poolTwoHeld
        [(1, jrSlow), (2, jrFailed)]).released.Perm
      ([(1, jrSlow), (2, jrFailed)].map Prod.fst) ∧
    (hwFlushAsynchronousDecompressRequests swTrivial poolTwoHeld
        [(1, jrSlow), (2, jrFailed)]).swRuns.Perm
      (failCalls [(1, jrSlow), (2, jrFailed)]) ∧
    ∀ e ∈ [(1, jrSlow), (2, jrFailed)],
      slotFreeIn (hwFlushAsynchronousDecompressRequests swTrivial poolTwoHeld
        [(1, jrSlow), (2, jrFailed)]).pool e.1 :=
  flush_pending_drains swTrivial poolTwoHeld [(1, jrSlow), (2, jrFailed)]
    (by decide) (by decide) (by decide) (by decide)

/-!
### Orchestrator flush and the mode reset (claim C7)
-/

/-- Claim C7, counterexample: a flush during which a software re-run throws
propagates the exception before the mode reset, so after this flush call the
mode is still Asynchronous, refuting the unconditional reset. -/
theorem flush_mode_not_reset_on_throw :
    (ccFlushAsynchronousDecompressRequests CodecMode.Asynchronous poolOneHeld
        swFailing [(1, jrFailed)]).mode = CodecMode.Asynchronous := by
  simp [ccFlushAsynchronousDecompressRequests, hwFlushAsynchronousDecompressRequests,
    flushGo, swFailing, jrFailed, poolOneHeld, isJobPoolReady]

/-- Claim C7 (amended): after every flush call that returns normally the
mode is Synchronous — whatever the mode before, whether any jobs were
pending, and in particular always when the pool is not ready, in which case
the hardware drain is not delegated and pool and pending map are untouched;
but when a software re-run inside the delegated drain throws, the exception
propagates before the reset and the mode is unchanged. -/
theorem flush_resets_mode (mode : CodecMode) (p : JobPool) (sw : SwCodec)
    (pending : List (Nat × QplJobRec)) :
    ((ccFlushAsynchronousDecompressRequests mode p sw pending).result = Except.ok () →
      (ccFlushAsynchronousDecompressRequests mode p sw pending).mode =
        CodecMode.Synchronous) ∧
    (isJobPoolReady p = false →
      (ccFlushAsynchronousDecompressRequests mode p sw pending).result = Except.ok () ∧
      (ccFlushAsynchronousDecompressRequests mode p sw pending).mode =
        CodecMode.Synchronous ∧
      (ccFlushAsynchronousDecompressRequests mode p sw pending).pool = p ∧
      (ccFlushAsynchronousDecompressRequests mode p sw pending).pending = pending) ∧
    (∀ e, (ccFlushAsynchronousDecompressRequests mode p sw pending).result =
        Except.error e →
      (ccFlushAsynchronousDecompressRequests mode p sw pending).mode = mode) := by
  by_cases hr : isJobPoolReady p = true
  · rw [ccFlushAsynchronousDecompressRequests, if_pos hr]
    cases hres : (hwFlushAsynchronousDecompressRequests sw p pending).result with
    | ok u =>
      refine ⟨fun _ => rfl, fun hnr => absurd hr (by rw [hnr]; exact Bool.noConfusion), ?_⟩
      intro e he
      exact absurd he (by simp)
    | error e0 =>
      refine ⟨fun hh => absurd hh (by simp),
        fun hnr => absurd hr (by rw [hnr]; exact Bool.noConfusion), fun e he => rfl⟩
  · rw [ccFlushAsynchronousDecompressRequests, if_neg hr]
    refine ⟨fun _ => rfl, fun _ => ⟨rfl, rfl, rfl, rfl⟩, ?_⟩
    intro e he
    exact absurd he (by simp)

theorem flush_resets_mode_witness :
    (ccFlushAsynchronousDecompressRequests CodecMode.Asynchronous poolUnready
        swTrivial []).result = Except.ok () ∧
    (ccFlushAsynchronousDecompressRequests CodecMode.Asynchronous poolUnready
        swTrivial []).mode = CodecMode.Synchronous ∧
    (ccFlushAsynchronousDecompressRequests CodecMode.Asynchronous poolUnready
        swTrivial []).pool = poolUnready ∧
    (ccFlushAsynchronousDecompressRequests CodecMode.Asynchronous poolUnready
        swTrivial []).pending = [] :=
  (flush_resets_mode CodecMode.Asynchronous poolUnready swTrivial []).2.1 rfl

/-!
### The software codec destructor (claim C9)
-/

/-- Claim C9: the destructor's condition is inverted in the source.  For an
instance whose private resource was created by `getJobCodecPtr`, the
destructor finalizes nothing; for an instance whose resource was never
created, it calls `qpl_fini_job` once — on the absent resource.  This
contradicts the claimed (and clearly intended, per the lazy-initialization
design) finalize-exactly-once-at-destruction behaviour. -/
theorem sw_destructor_condition_inverted :
    swDestructorFiniTargets (swGetJobCodecPtr none) = [] ∧
    swDestructorFiniTargets none = [none] := by decide

theorem max_compressed_size_bound_witness :
    getMaxCompressedDataSize 0 = 13 ∧
    ∀ v, (ccDoCompressData poolUnready (fun _ => 0) { execOk := true, total_out := 0 }
        swTrivial [1, 2, 3] 0).1 = Except.ok v →
      v ≤ getMaxCompressedDataSize ([1, 2, 3] : List Nat).length :=
  max_compressed_size_bound poolUnready (fun _ => 0) { execOk := true, total_out := 0 }
    swTrivial [1, 2, 3] 0 (by decide)
    (fun cap v h => by
      have hh : (0 : Nat) = v := Except.ok.inj h
      omega)

/-!
### Whole-system slot balance (claim C10)
-/

theorem set_get_self {α : Type} (L : List α) (e : Nat) (he : e < L.length) :
    L.set e (L.get ⟨e, he⟩) = L := by
  induction L generalizing e with
  | nil => rfl
  | cons x xs ih =>
    cases e with
    | zero => rfl
    | succ j => simpa using ih j (by simpa using he)

theorem joinL_cons {α : Type} (x : List α) (xs : List (List α)) :
    joinL (x :: xs) = x ++ joinL xs := rfl

theorem perm_swap_blocks {α : Type} (x A B : List α) :
    (x ++ (A ++ B)).Perm (A ++ (x ++ B)) := by
  rw [show x ++ (A ++ B) = (x ++ A) ++ B from (List.append_assoc x A B).symm,
    show A ++ (x ++ B) = (A ++ x) ++ B from (List.append_assoc A x B).symm]
  exact List.Perm.append_right B List.perm_append_comm

theorem perm_pull_middle {α : Type} (xs ys zs : List α) (a : α) :
    (xs ++ (ys ++ a :: zs)).Perm (a :: (xs ++ (ys ++ zs))) := by
  rw [show xs ++ (ys ++ a :: zs) = (xs ++ ys) ++ a :: zs from
      (List.append_assoc xs ys _).symm,
    show xs ++ (ys ++ zs) = (xs ++ ys) ++ zs from (List.append_assoc xs ys zs).symm]
  exact List.perm_middle

theorem joinL_set_perm {α : Type} (L : List (List α)) (e : Nat) (he : e < L.length)
    (m' : List α) : (joinL (L.set e m')).Perm (m' ++ joinL (L.set e [])) := by
  induction L generalizing e with
  | nil => simp at he
  | cons x xs ih =>
    cases e with
    | zero =>
      rw [show (x :: xs).set 0 m' = m' :: xs from rfl,
        show (x :: xs).set 0 [] = [] :: xs from rfl, joinL_cons, joinL_cons]
      rw [List.nil_append]
    | succ j =>
      have hj : j < xs.length := by simpa using he
      rw [show (x :: xs).set (j + 1) m' = x :: xs.set j m' from rfl,
        show (x :: xs).set (j + 1) [] = x :: xs.set j [] from rfl, joinL_cons, joinL_cons]
      exact (List.Perm.append_left x (ih j hj)).trans (perm_swap_blocks x m' _)

theorem joinL_decomp {α : Type} (L : List (List α)) (e : Nat) (he : e < L.length) :
    (joinL L).Perm (L.get ⟨e, he⟩ ++ joinL (L.set e [])) := by
  have hh := joinL_set_perm L e he (L.get ⟨e, he⟩)
  rwa [set_get_self L e he] at hh

theorem mem_heldIndices (p : JobPool) (i : Nat) :
    i ∈ heldIndices p ↔ i < p.max_hw_jobs ∧ p.hw_job_ptr_locks.getD i true = true := by
  rw [heldIndices]
  constructor
  · intro hmem
    have hh := List.mem_filter.mp hmem
    exact ⟨List.mem_range.mp hh.1, hh.2⟩
  · intro hh
    exact List.mem_filter.mpr ⟨List.mem_range.mpr hh.1, hh.2⟩

theorem PoolIdsInv_perm (p : JobPool) {ids ids' : List Nat} (hperm : ids.Perm ids')
    (h : PoolIdsInv p ids) : PoolIdsInv p ids' := by
  obtain ⟨h1, h2, h3, h4, h5, h6, h7⟩ := h
  refine ⟨h1, h2, ?_, ?_, ?_, ?_, ?_⟩
  · intro hnr
    have hnil := h3 hnr
    rw [hnil] at hperm
    exact hperm.symm.eq_nil
  · intro id hid
    exact h4 id (hperm.mem_iff.mpr hid)
  · exact ((hperm.map _).nodup_iff).mp h5
  · intro i hi
    exact ((hperm.map _).mem_iff).mp (h6 i hi)
  · intro i hi
    exact h7 i (((hperm.map _).mem_iff).mpr hi)

theorem PoolIdsInv_release (p : JobPool) (id : Nat) (ids : List Nat)
    (h : PoolIdsInv p (id :: ids)) : PoolIdsInv (releaseJob p id) ids := by
  obtain ⟨h1, h2, h3, h4, h5, h6, h7⟩ := h
  have hready : p.job_pool_ready = true := by
    cases hb : p.job_pool_ready with
    | true => rfl
    | false => exact absurd (h3 hb) (by simp)
  have hid := h4 id (by simp)
  have hmax : 0 < p.max_hw_jobs := h2 hready
  have hidxlt : p.max_hw_jobs - id < p.max_hw_jobs := by omega
  have hrel : releaseJob p id = unLockJob p (p.max_hw_jobs - id) := by
    rw [releaseJob, if_pos (by simpa [isJobPoolReady] using hready)]
  rw [hrel, unLockJob]
  have hlenlt : p.max_hw_jobs - id < p.hw_job_ptr_locks.length := by
    rw [h1]; exact hidxlt
  have hnd := List.nodup_cons.mp h5
  refine ⟨?_, ?_, ?_, ?_, ?_, ?_, ?_⟩
  · show (p.hw_job_ptr_locks.set _ false).length = p.max_hw_jobs
    rw [List.length_set]; exact h1
  · intro _; exact hmax
  · intro hr
    exact Bool.noConfusion (hready.symm.trans hr)
  · intro j hj
    exact h4 j (by simp [hj])
  · exact hnd.2
  · intro i hi
    rw [mem_heldIndices] at hi
    have hi' : i < p.max_hw_jobs ∧
        (p.hw_job_ptr_locks.set (p.max_hw_jobs - id) false).getD i true = true := hi
    by_cases hiq : i = p.max_hw_jobs - id
    · exfalso
      have hgot := hi'.2
      rw [hiq] at hgot
      rw [getD_set_self _ _ _ hlenlt] at hgot
      exact Bool.noConfusion hgot
    · have hgot : p.hw_job_ptr_locks.getD i true = true := by
        have hgot' := hi'.2
        rwa [getD_set_ne _ _ _ _ (fun hh => hiq hh.symm)] at hgot'
      have hmem : i ∈ heldIndices p := (mem_heldIndices p i).mpr ⟨hi'.1, hgot⟩
      have hin := h6 i hmem
      rcases List.mem_cons.mp hin with hin' | hin'
      · exact absurd hin' hiq
      · exact hin'
  · intro i hi
    have hi0 : i ∈ ids.map (fun j => p.max_hw_jobs - j) := hi
    have hin : i ∈ (id :: ids).map (fun id => p.max_hw_jobs - id) :=
      List.mem_cons_of_mem _ hi0
    have hheld := h7 i hin
    rw [mem_heldIndices] at hheld
    have hnd1 : p.max_hw_jobs - id ∉ List.map (fun j => p.max_hw_jobs - j) ids := hnd.1
    have hine : i ≠ p.max_hw_jobs - id := by
      intro hh
      rw [hh] at hi0
      exact hnd1 hi0
    rw [mem_heldIndices]
    refine ⟨hheld.1, ?_⟩
    show (p.hw_job_ptr_locks.set (p.max_hw_jobs - id) false).getD i true = true
    rw [getD_set_ne _ _ _ _ (fun hh => hine hh.symm)]
    exact hheld.2

theorem PoolIdsInv_lock (p : JobPool) (ids : List Nat) (idx : Nat)
    (h : PoolIdsInv p ids) (hfree : p.hw_job_ptr_locks.getD idx true = false)
    (hlt : idx < p.max_hw_jobs) (hready : p.job_pool_ready = true) :
    PoolIdsInv { p with hw_job_ptr_locks := p.hw_job_ptr_locks.set idx true }
      (ids ++ [p.max_hw_jobs - idx]) := by
  obtain ⟨h1, h2, h3, h4, h5, h6, h7⟩ := h
  have hlenlt : idx < p.hw_job_ptr_locks.length := by rw [h1]; exact hlt
  have hsimp : p.max_hw_jobs - (p.max_hw_jobs - idx) = idx := by omega
  have hidxnot : idx ∉ ids.map (fun id => p.max_hw_jobs - id) := by
    intro hmem
    have hh := h7 idx hmem
    rw [mem_heldIndices] at hh
    exact Bool.noConfusion (hh.2.symm.trans hfree)
  refine ⟨?_, ?_, ?_, ?_, ?_, ?_, ?_⟩
  · show (p.hw_job_ptr_locks.set idx true).length = p.max_hw_jobs
    rw [List.length_set]; exact h1
  · intro _; exact h2 hready
  · intro hr
    exact Bool.noConfusion (hready.symm.trans hr)
  · intro j hj
    rcases List.mem_append.mp hj with hj' | hj'
    · exact h4 j hj'
    · have hje : j = p.max_hw_jobs - idx := by simpa using hj'
      subst hje
      refine ⟨by omega, ?_⟩
      show p.max_hw_jobs - idx ≤ p.max_hw_jobs
      omega
  · rw [List.map_append]
    simp only [List.map_cons, List.map_nil, hsimp]
    rw [List.nodup_append]
    refine ⟨h5, by simp, ?_⟩
    intro a ha hb
    have hab : a = idx := by simpa using hb
    subst hab
    exact hidxnot ha
  · intro i hi
    rw [mem_heldIndices] at hi
    have hi2 : i < p.max_hw_jobs ∧
        (p.hw_job_ptr_locks.set idx true).getD i true = true := hi
    by_cases hiq : i = idx
    · subst hiq
      rw [List.map_append]
      refine List.mem_append_right _ ?_
      simp [hsimp]
    · have hgot : p.hw_job_ptr_locks.getD i true = true := by
        have hgot' := hi2.2
        rwa [getD_set_ne _ _ _ _ (fun hh => hiq hh.symm)] at hgot'
      have hmem : i ∈ heldIndices p := (mem_heldIndices p i).mpr ⟨hi2.1, hgot⟩
      rw [List.map_append]
      exact List.mem_append_left _ (h6 i hmem)
  · intro i hi
    rw [List.map_append] at hi
    rw [mem_heldIndices]
    rcases List.mem_append.mp hi with hi' | hi'
    · have hheld := h7 i hi'
      rw [mem_heldIndices] at hheld
      refine ⟨hheld.1, ?_⟩
      show (p.hw_job_ptr_locks.set idx true).getD i true = true
      by_cases hiq : i = idx
      · rw [hiq]
        exact getD_set_self _ _ _ hlenlt
      · rw [getD_set_ne _ _ _ _ (fun hh => hiq hh.symm)]
        exact hheld.2
    · have hie : i = idx := by simpa [hsimp] using hi'
      subst hie
      exact ⟨hlt, getD_set_self _ _ _ hlenlt⟩

theorem releaseJob_after_acquire (p : JobPool) (rands : Nat → Nat) (id idx : Nat)
    (p' : JobPool) (hlen : p.hw_job_ptr_locks.length = p.max_hw_jobs)
    (h : acquireJob p rands = some (id, idx, p')) : releaseJob p' id = p := by
  obtain ⟨hready, hfree, hlt, hq, hid⟩ := acquireJob_spec p rands id idx p' h
  have hlt' : idx < p.max_hw_jobs := by rw [← hlen]; exact hlt
  have hrel : releaseJob p' id = unLockJob p' (p'.max_hw_jobs - id) := by
    rw [releaseJob, if_pos (by rw [hq]; simpa [isJobPoolReady] using hready)]
  rw [hrel, hq]
  show { p with hw_job_ptr_locks :=
      (p.hw_job_ptr_locks.set idx true).set (p.max_hw_jobs - id) false } = p
  have hidx : p.max_hw_jobs - id = idx := by omega
  rw [hidx, List.set_set, set_false_of_getD_false _ _ hfree]

theorem hwDoCompressData_pool (p : JobPool) (rands : Nat → Nat)
    (dev : HwCompressOutcome) (source : List Nat) (dest : Nat) (dest_size : Nat)
    (hlen : p.hw_job_ptr_locks.length = p.max_hw_jobs) :
    (hwDoCompressData p rands dev source dest dest_size).2 = p := by
  rw [hwDoCompressData]
  cases ha : acquireJob p rands with
  | none => rfl
  | some v =>
    obtain ⟨id0, idx0, q0⟩ := v
    have hrel := releaseJob_after_acquire p rands id0 idx0 q0 hlen ha
    by_cases hx : dev.execOk = true
    · simp [hx, hrel]
    · simp [hx, hrel]

theorem hwDoDecompressDataSynchronous_pool (p : JobPool) (rands : Nat → Nat)
    (dev : HwDecompressOutcome) (source : List Nat) (n : Nat)
    (hlen : p.hw_job_ptr_locks.length = p.max_hw_jobs) :
    (hwDoDecompressDataSynchronous p rands dev source n).2 = p := by
  rw [hwDoDecompressDataSynchronous]
  cases ha : acquireJob p rands with
  | none => rfl
  | some v =>
    obtain ⟨id0, idx0, q0⟩ := v
    have hrel := releaseJob_after_acquire p rands id0 idx0 q0 hlen ha
    by_cases hs : dev.submitOk = true
    · by_cases hc : checkJobLoop dev.polls dev.finalOk = true
      · simp [hs, hc, hrel]
      · simp [hs, hc, hrel]
    · simp [hs, hrel]

theorem flushGo_inv (sw : SwCodec) (pool : JobPool)
    (processed remaining : List (Nat × QplJobRec)) (released : List Nat)
    (swRuns : List SwCall) :
    ∀ others : List Nat,
      PoolIdsInv pool (others ++ (processed ++ remaining).map Prod.fst) →
      PoolIdsInv (flushGo sw pool processed remaining released swRuns).pool
        (others ++ ((flushGo sw pool processed remaining released swRuns).map).map
          Prod.fst) := by
  refine flushGo.induct sw
    (fun pool processed remaining released swRuns =>
      ∀ others : List Nat,
        PoolIdsInv pool (others ++ (processed ++ remaining).map Prod.fst) →
        PoolIdsInv (flushGo sw pool processed remaining released swRuns).pool
          (others ++ ((flushGo sw pool processed remaining released swRuns).map).map
            Prod.fst))
    ?_ ?_ ?_ ?_ ?_ ?_ pool processed remaining released swRuns
  · intro pool released swRuns others hinv
    simp only [flushGo, List.map_nil]
    simpa using hinv
  · intro pool released swRuns q qs ih others hinv
    simp only [flushGo]
    refine ih others (PoolIdsInv_perm pool ?_ hinv)
    simp only [List.append_nil, List.nil_append, List.map_reverse]
    exact List.Perm.append_left others (List.reverse_perm _).symm
  · intro pool processed released swRuns job_id jr rest hpolls ih others hinv
    simp only [flushGo]
    rw [dif_pos hpolls]
    refine ih others (PoolIdsInv_perm pool ?_ hinv)
    simp only [List.map_append, List.map_cons]
    exact List.Perm.append_left others List.perm_middle
  · intro pool processed released swRuns job_id jr rest hnp hok ih others hinv
    simp only [flushGo]
    rw [dif_neg hnp, if_pos hok]
    refine ih others (PoolIdsInv_release pool job_id _ (PoolIdsInv_perm pool ?_ hinv))
    simp only [List.map_append, List.map_cons]
    exact perm_pull_middle others (processed.map Prod.fst) (rest.map Prod.fst) job_id
  · intro pool processed released swRuns job_id jr rest hnp hnok a hswa ih others hinv
    simp only [flushGo]
    rw [dif_neg hnp, if_neg hnok, hswa]
    refine ih others (PoolIdsInv_release pool job_id _ (PoolIdsInv_perm pool ?_ hinv))
    simp only [List.map_append, List.map_cons]
    exact perm_pull_middle others (processed.map Prod.fst) (rest.map Prod.fst) job_id
  · intro pool processed released swRuns job_id jr rest hnp hnok e hswe others hinv
    simp only [flushGo]
    rw [dif_neg hnp, if_neg hnok, hswe]
    refine PoolIdsInv_perm pool ?_ hinv
    simp only [List.map_append, List.map_cons, List.map_reverse]
    exact List.Perm.append_left others
      (List.Perm.append_right _ (List.reverse_perm _).symm)

theorem applySysOp_inv (s : SysState) (op : SysOp) (h : SysInv s) :
    SysInv (applySysOp s op) := by
  have hlen : s.pool.hw_job_ptr_locks.length = s.pool.max_hw_jobs := h.1
  cases op with
  | compressOp e rands dev source dest dest_size =>
    simp only [applySysOp]
    rw [hwDoCompressData_pool s.pool rands dev source dest dest_size hlen]
    exact h
  | decompSyncOp e rands dev source n =>
    simp only [applySysOp]
    rw [hwDoDecompressDataSynchronous_pool s.pool rands dev source n hlen]
    exact h
  | decompAsyncOp e rands dev source dest n =>
    simp only [applySysOp]
    by_cases he : e < s.engines.length
    · rw [dif_pos he]
      cases ha : acquireJob s.pool rands with
      | none =>
        have ht : hwDoDecompressDataAsynchronous s.pool rands dev source dest n
            (s.engines.get ⟨e, he⟩) = (none, s.pool, s.engines.get ⟨e, he⟩) := by
          rw [hwDoDecompressDataAsynchronous, ha]
        rw [ht]
        show SysInv { pool := s.pool, engines := s.engines.set e (s.engines.get ⟨e, he⟩) }
        rw [set_get_self s.engines e he]
        exact h
      | some v =>
        obtain ⟨id0, idx0, q0⟩ := v
        obtain ⟨hready, hfree, hltl, hq, hid⟩ := acquireJob_spec s.pool rands id0 idx0 q0 ha
        have hlt : idx0 < s.pool.max_hw_jobs := by rw [← hlen]; exact hltl
        by_cases hs : dev.submitOk = true
        · have ht : hwDoDecompressDataAsynchronous s.pool rands dev source dest n
              (s.engines.get ⟨e, he⟩) =
              (some id0, q0, s.engines.get ⟨e, he⟩ ++
                [(id0, { next_in := source, available_in := source.length,
                         next_out := dest, available_out := n, polls := dev.polls,
                         finalOk := dev.finalOk, output := dev.output })]) := by
            rw [hwDoDecompressDataAsynchronous, ha]
            simp [hs]
          rw [ht]
          have hinv0 : PoolIdsInv s.pool ((allPending s).map Prod.fst) := h
          have hdec := (joinL_decomp s.engines e he).map Prod.fst
          rw [List.map_append] at hdec
          have hlock := PoolIdsInv_lock s.pool ((allPending s).map Prod.fst) idx0
            hinv0 hfree hlt hready
          rw [← hid, ← hq] at hlock
          refine PoolIdsInv_perm q0 ?_ hlock
          have hnew := (joinL_set_perm s.engines e he
            (s.engines.get ⟨e, he⟩ ++
              [(id0, { next_in := source, available_in := source.length,
                       next_out := dest, available_out := n, polls := dev.polls,
                       finalOk := dev.finalOk, output := dev.output })])).map Prod.fst
          rw [List.map_append, List.map_append, List.map_cons, List.map_nil] at hnew
          refine List.Perm.trans ?_ hnew.symm
          refine (List.Perm.append_right [id0] hdec).trans ?_
          rw [List.append_assoc, List.append_assoc]
          exact List.Perm.append_left _ List.perm_append_comm
        · have ht : hwDoDecompressDataAsynchronous s.pool rands dev source dest n
              (s.engines.get ⟨e, he⟩) =
              (none, releaseJob q0 id0, s.engines.get ⟨e, he⟩) := by
            rw [hwDoDecompressDataAsynchronous, ha]
            simp [hs]
          rw [ht]
          have hrel := releaseJob_after_acquire s.pool rands id0 idx0 q0 hlen ha
          rw [hrel]
          show SysInv { pool := s.pool, engines := s.engines.set e (s.engines.get ⟨e, he⟩) }
          rw [set_get_self s.engines e he]
          exact h
    · rw [dif_neg he]
      exact h
  | flushOp e sw =>
    simp only [applySysOp]
    by_cases he : e < s.engines.length
    · rw [dif_pos he]
      have hdec := (joinL_decomp s.engines e he).map Prod.fst
      rw [List.map_append] at hdec
      have hstart : PoolIdsInv s.pool
          ((joinL (s.engines.set e [])).map Prod.fst ++
            (([] : List (Nat × QplJobRec)) ++ s.engines.get ⟨e, he⟩).map Prod.fst) := by
        refine PoolIdsInv_perm s.pool ?_ h
        simp only [List.nil_append]
        exact hdec.trans List.perm_append_comm
      have hend := flushGo_inv sw s.pool [] (s.engines.get ⟨e, he⟩) [] []
        ((joinL (s.engines.set e [])).map Prod.fst) hstart
      refine PoolIdsInv_perm _ ?_ hend
      have hnew := (joinL_set_perm s.engines e he
        (hwFlushAsynchronousDecompressRequests sw s.pool (s.engines.get ⟨e, he⟩)).map).map
        Prod.fst
      rw [List.map_append] at hnew
      refine List.Perm.symm (hnew.trans ?_)
      exact List.perm_append_comm
    · rw [dif_neg he]
      exact h

theorem foldl_applySysOp_inv (ops : List SysOp) :
    ∀ s : SysState, SysInv s → SysInv (ops.foldl applySysOp s) := by
  induction ops with
  | nil => intro s h; exact h
  | cons op rest ih => intro s h; exact ih (applySysOp s op) (applySysOp_inv s op h)

/-- Claim C10: starting from any state satisfying the slot-balance invariant
— the held pool slots are exactly the slots registered in some engine's
pending-async-job map — every sequence of complete hardware-engine
operations preserves it; moreover a synchronous compress and a synchronous
decompress leave the whole system state unchanged on every exit path
(acquired slots are released before returning), so only a successful
asynchronous submit leaves a slot held past its call's return, and only
flush releases such a slot. -/
theorem slot_balance_invariant (s : SysState) (ops : List SysOp) (h : SysInv s) :
    SysInv (ops.foldl applySysOp s) ∧
    (∀ e rands dev source dest dest_size,
      applySysOp s (SysOp.compressOp e rands dev source dest dest_size) = s) ∧
    (∀ e rands dev source n,
      applySysOp s (SysOp.decompSyncOp e rands dev source n) = s) := by
  refine ⟨foldl_applySysOp_inv ops s h, ?_, ?_⟩
  · intro e rands dev source dest dest_size
    simp only [applySysOp]
    rw [hwDoCompressData_pool s.pool rands dev source dest dest_size h.1]
  · intro e rands dev source n
    simp only [applySysOp]
    rw [hwDoDecompressDataSynchronous_pool s.pool rands dev source n h.1]

theorem slot_balance_invariant_witness :
    SysInv { pool := { max_hw_jobs := 1, job_pool_ready := true
                       hw_job_ptr_locks := [false] },
             engines := [[]] } ∧
    SysInv (([SysOp.decompAsyncOp 0 (fun _ => 0)
          { submitOk := true, polls := 0, finalOk := true, output := [] } [4] 0 1,
        SysOp.flushOp 0 swTrivial] : List SysOp).foldl applySysOp
      { pool := { max_hw_jobs := 1, job_pool_ready := true
                  hw_job_ptr_locks := [false] },
        engines := [[]] }) :=
  ⟨by unfold SysInv PoolIdsInv allPending; decide,
   (slot_balance_invariant
     { pool := { max_hw_jobs := 1, job_pool_ready := true, hw_job_ptr_locks := [false] },
       engines := [[]] }
     [SysOp.decompAsyncOp 0 (fun _ => 0)
        { submitOk := true, polls := 0, finalOk := true, output := [] } [4] 0 1,
      SysOp.flushOp 0 swTrivial]
     (by unfold SysInv PoolIdsInv allPending; decide)).1⟩

end QplCodec
